import Mathlib

/-!
Verification of the Feodo C2 data-enrichment pipeline
(`latestDataset.py` / `datasetEnricher.py`).

The enrichment pipeline is shallowly embedded here:

* a pandas `DataFrame` is a list of named columns, each column a list of
  nullable cells (`Option Value`);
* JSON values (the ip-api responses and the cache file contents) are the
  mutual inductive `Json` with string-keyed members, integers standing in
  for JSON numbers;
* the filesystem is an association list from path strings to file text;
* the network (`requests.post` inside `ip_api_batch_query`) is an oracle
  `List String → Except String (List Json)` — `.error e` models any raised
  exception (timeout, transport error, `raise_for_status`), `e` being
  `str(e)`;
* `time.sleep` is recorded as the rational number of seconds slept.
-/

namespace Feodo

/-! ## JSON values

`json.dumps` / `json.loads` work on Python values; the cache maps IP strings
to provider-returned records.  JSON numbers are modelled as integers (the
fields the program stores are strings, ints and provider floats; floats are
outside the model).  The mutual inductive keeps all recursion structural. -/

mutual

inductive Json : Type where
  | null : Json
  | bool : Bool → Json
  | int : Int → Json
  | str : String → Json
  | arr : JsonList → Json
  | obj : JsonMembers → Json

inductive JsonList : Type where
  | nil : JsonList
  | cons : Json → JsonList → JsonList

inductive JsonMembers : Type where
  | nil : JsonMembers
  | cons : String → Json → JsonMembers → JsonMembers

end

/-- A Python `dict` with string keys, in insertion order. -/
abbrev Dict := List (String × Json)

/-- View of an object body as a `Dict` (keeps order). -/
def membersList : JsonMembers → Dict
  | .nil => []
  | .cons k v ms => (k, v) :: membersList ms

/-- Build an object body from a `Dict` (keeps order). -/
def toMembers : Dict → JsonMembers
  | [] => .nil
  | (k, v) :: rest => .cons k v (toMembers rest)

/-- `res.get(key)` on a parsed JSON object; `none` on a non-object. -/
def jGet (j : Json) (key : String) : Option Json :=
  match j with
  | .obj ms => go ms
  | _ => none
where
  go : JsonMembers → Option Json
    | .nil => none
    | .cons k v ms => if k == key then some v else go ms

/-- Python dict lookup `d[k]` / `d.get(k)` on the ordered model. -/
def dictLookup (d : Dict) (k : String) : Option Json :=
  match d with
  | [] => none
  | (k2, v) :: rest => if k2 == k then some v else dictLookup rest k

/-- Python `k in d`. -/
def dictContains (d : Dict) (k : String) : Bool :=
  (dictLookup d k).isSome

/-- Python `d[k] = v`: overwrite in place when the key exists (keeping its
position, as dicts do), otherwise append. -/
def dictInsert (d : Dict) (k : String) (v : Json) : Dict :=
  match d with
  | [] => [(k, v)]
  | (k2, v2) :: rest =>
      if k2 == k then (k2, v) :: rest else (k2, v2) :: dictInsert rest k v

/-! ## Printing: `json.dumps(cache, ensure_ascii=False, indent=2)` -/

/-- The opening brace character. -/
def obrace : Char := '\x7b'

/-- The closing brace character. -/
def cbrace : Char := '\x7d'

/-- Digit characters for the lowercase hex alphabet used by `\uXXXX` escapes. -/
def hexDigitChar (n : Nat) : Char :=
  if n < 10 then Char.ofNat (48 + n) else Char.ofNat (87 + n)

/-- Decimal digit character. -/
def digitChar (n : Nat) : Char := Char.ofNat (48 + n)

/-- Decimal digits, most significant first; `fuel` bounds the digit count
(structural recursion so that the kernel can evaluate it). -/
def natCharsAux : Nat → Nat → List Char
  | 0, _ => []
  | fuel + 1, n =>
      if n < 10 then [digitChar n]
      else natCharsAux fuel (n / 10) ++ [digitChar (n % 10)]

/-- Decimal digits of a natural number, most significant first (`str(n)`). -/
def natChars (n : Nat) : List Char :=
  natCharsAux (n + 1) n

/-- `str(n)` for an int: optional minus sign then decimal digits. -/
def intChars (n : Int) : List Char :=
  if n < 0 then '-' :: natChars (-n).toNat else natChars n.toNat

/-- One character of a JSON string body, as `json.dumps(..., ensure_ascii=False)`
emits it: `"` and `\` and the named control characters get two-character
escapes, other control characters (code points below 0x20) get `\u00xx`,
everything else is copied verbatim. -/
def escChar (c : Char) : List Char :=
  if c = '"' then ['\\', '"']
  else if c = '\\' then ['\\', '\\']
  else if c = '\n' then ['\\', 'n']
  else if c = '\r' then ['\\', 'r']
  else if c = '\t' then ['\\', 't']
  else if c = Char.ofNat 8 then ['\\', 'b']
  else if c = Char.ofNat 12 then ['\\', 'f']
  else if c.toNat < 32 then
    '\\' :: 'u' :: '0' :: '0' :: hexDigitChar (c.toNat / 16) ::
      hexDigitChar (c.toNat % 16) :: []
  else [c]

/-- Escaped body of a JSON string. -/
def escChars : List Char → List Char
  | [] => []
  | c :: cs => escChar c ++ escChars cs

/-- A quoted JSON string literal. -/
def quoteChars (s : String) : List Char :=
  '"' :: escChars s.data ++ ['"']

/-- Newline plus the `indent=2` indentation at nesting depth `d`. -/
def nlInd (d : Nat) : List Char :=
  '\n' :: List.replicate (2 * d) ' '

mutual

/-- `json.dumps(j, ensure_ascii=False, indent=2)` at nesting depth `d`,
as a character list. -/
def printJson (d : Nat) : Json → List Char
  | .null => 'n' :: 'u' :: 'l' :: 'l' :: []
  | .bool true => 't' :: 'r' :: 'u' :: 'e' :: []
  | .bool false => 'f' :: 'a' :: 'l' :: 's' :: 'e' :: []
  | .int n => intChars n
  | .str s => quoteChars s
  | .arr .nil => ['[', ']']
  | .arr (.cons x xs) =>
      '[' :: nlInd (d + 1) ++ printJson (d + 1) x ++ printElems (d + 1) xs
        ++ nlInd d ++ [']']
  | .obj .nil => [obrace, cbrace]
  | .obj (.cons k v ms) =>
      obrace :: nlInd (d + 1) ++ quoteChars k ++ ':' :: ' ' :: printJson (d + 1) v
        ++ printMembers (d + 1) ms ++ nlInd d ++ [cbrace]

/-- The remaining elements of an array, each preceded by `,` and a fresh
indented line. -/
def printElems (d : Nat) : JsonList → List Char
  | .nil => []
  | .cons x xs => ',' :: nlInd d ++ printJson d x ++ printElems d xs

/-- The remaining members of an object, each preceded by `,` and a fresh
indented line; each member is printed as `"key": value`. -/
def printMembers (d : Nat) : JsonMembers → List Char
  | .nil => []
  | .cons k v ms => ',' :: nlInd d ++ quoteChars k ++ ':' :: ' ' :: printJson d v ++ printMembers d ms

end

/-- `json.dumps(j, ensure_ascii=False, indent=2)`. -/
def dumpsJson (j : Json) : String :=
  ⟨printJson 0 j⟩

/-! ## Parsing: `json.loads`

A recursive-descent reading of a JSON document, modelling `json.loads` on
the documents this program ever handles (numbers are read as integers; the
exponent/fraction forms and `\uXXXX` surrogate pairs are outside the model).
`fuel` bounds the recursion depth; `parseJson` supplies more than enough. -/

/-- JSON insignificant whitespace. -/
def isJsonWs (c : Char) : Bool :=
  (c == ' ') || (c == '\t') || (c == '\n') || (c == '\r')

/-- Skip insignificant whitespace. -/
def skipWs (cs : List Char) : List Char :=
  cs.dropWhile isJsonWs

/-- Value of one hexadecimal digit. -/
def hexVal (c : Char) : Option Nat :=
  if c.isDigit then some (c.toNat - 48)
  else if 'a' ≤ c ∧ c ≤ 'f' then some (c.toNat - 87)
  else if 'A' ≤ c ∧ c ≤ 'F' then some (c.toNat - 55)
  else none

/-- The single-character escapes accepted after a backslash. -/
def unescChar (c : Char) : Option Char :=
  if c = '"' then some '"'
  else if c = '\\' then some '\\'
  else if c = '/' then some '/'
  else if c = 'b' then some (Char.ofNat 8)
  else if c = 'f' then some (Char.ofNat 12)
  else if c = 'n' then some '\n'
  else if c = 'r' then some '\r'
  else if c = 't' then some '\t'
  else none

/-- Read a JSON string body up to (and consuming) the closing quote,
returning the unescaped characters and the remaining input. -/
def parseStringBody : List Char → Option (List Char × List Char)
  | [] => none
  | c :: cs =>
    if c = '"' then some ([], cs)
    else if c = '\\' then
      match cs with
      | [] => none
      | e :: cs2 =>
        if e = 'u' then
          match cs2 with
          | h1 :: h2 :: h3 :: h4 :: cs3 =>
            match hexVal h1, hexVal h2, hexVal h3, hexVal h4 with
            | some a, some b, some c3, some d4 =>
              match parseStringBody cs3 with
              | some (s, r) =>
                  some (Char.ofNat (((a * 16 + b) * 16 + c3) * 16 + d4) :: s, r)
              | none => none
            | _, _, _, _ => none
          | _ => none
        else
          match unescChar e with
          | some c2 =>
            match parseStringBody cs2 with
            | some (s, r) => some (c2 :: s, r)
            | none => none
          | none => none
    else
      match parseStringBody cs with
      | some (s, r) => some (c :: s, r)
      | none => none

/-- Numeric value of a run of decimal digit characters. -/
def digitsVal (cs : List Char) : Nat :=
  cs.foldl (fun a c => a * 10 + (c.toNat - 48)) 0

mutual

/-- Read one JSON value (after skipping leading whitespace). -/
def parseValue : Nat → List Char → Option (Json × List Char)
  | 0, _ => none
  | fuel + 1, cs0 =>
    match skipWs cs0 with
    | [] => none
    | c :: cs =>
      if c = 'n' then
        match cs with
        | 'u' :: 'l' :: 'l' :: r => some (.null, r)
        | _ => none
      else if c = 't' then
        match cs with
        | 'r' :: 'u' :: 'e' :: r => some (.bool true, r)
        | _ => none
      else if c = 'f' then
        match cs with
        | 'a' :: 'l' :: 's' :: 'e' :: r => some (.bool false, r)
        | _ => none
      else if c = '"' then
        match parseStringBody cs with
        | some (s, r) => some (.str ⟨s⟩, r)
        | none => none
      else if c = '-' then
        match cs with
        | d :: _ =>
          if d.isDigit then
            some (.int (-(digitsVal (cs.takeWhile Char.isDigit) : Int)),
              cs.dropWhile Char.isDigit)
          else none
        | [] => none
      else if c.isDigit then
        some (.int (digitsVal ((c :: cs).takeWhile Char.isDigit) : Int),
          (c :: cs).dropWhile Char.isDigit)
      else if c = '[' then
        match skipWs cs with
        | c2 :: r =>
            if c2 = ']' then some (.arr .nil, r)
            else parseElems fuel (c2 :: r)
        | [] => none
      else if c = obrace then
        match skipWs cs with
        | c2 :: r =>
          if c2 = cbrace then some (.obj .nil, r)
          else parseMembers fuel (c2 :: r)
        | [] => none
      else none

/-- Read the elements of a non-empty array, consuming the closing bracket. -/
def parseElems : Nat → List Char → Option (Json × List Char)
  | 0, _ => none
  | fuel + 1, cs =>
    match parseValue fuel cs with
    | some (v, r) =>
      match skipWs r with
      | ',' :: r2 =>
        match parseElems fuel r2 with
        | some (.arr vs, r3) => some (.arr (.cons v vs), r3)
        | _ => none
      | ']' :: r2 => some (.arr (.cons v .nil), r2)
      | _ => none
    | none => none

/-- Read the members of a non-empty object, consuming the closing brace. -/
def parseMembers : Nat → List Char → Option (Json × List Char)
  | 0, _ => none
  | fuel + 1, cs =>
    match skipWs cs with
    | c0 :: cs1 =>
      if c0 = '"' then
        match parseStringBody cs1 with
        | some (k, r) =>
          match skipWs r with
          | ':' :: r2 =>
            match parseValue fuel r2 with
            | some (v, r3) =>
              match skipWs r3 with
              | ',' :: r4 =>
                match parseMembers fuel r4 with
                | some (.obj ms, r5) => some (.obj (.cons ⟨k⟩ v ms), r5)
                | _ => none
              | c2 :: r4 =>
                  if c2 = cbrace then some (.obj (.cons ⟨k⟩ v .nil), r4) else none
              | [] => none
            | none => none
          | _ => none
        | none => none
      else none
    | [] => none

end

/-- `json.loads(s)`: parse one value, allowing trailing whitespace only. -/
def parseJson (s : String) : Option Json :=
  match parseValue (s.length + 1) s.data with
  | some (j, r) =>
    match skipWs r with
    | [] => some j
    | _ => none
  | none => none

mutual

/-- Recursion depth needed by `parseValue` to read a printed value. -/
def needJ : Json → Nat
  | .null => 1
  | .bool _ => 1
  | .int _ => 1
  | .str _ => 1
  | .arr l => 1 + needElems l
  | .obj m => 1 + needMembers m

/-- Recursion depth needed by `parseElems`. -/
def needElems : JsonList → Nat
  | .nil => 0
  | .cons x xs => 1 + max (needJ x) (needElems xs)

/-- Recursion depth needed by `parseMembers`. -/
def needMembers : JsonMembers → Nat
  | .nil => 0
  | .cons _ v ms => 1 + max (needJ v) (needMembers ms)

end

/-! ## Print/parse roundtrip -/

/-- The input does not begin with a decimal digit (so a freshly parsed
number is not extended into it). -/
def NoDigHead (rest : List Char) : Prop :=
  ∀ c, rest.head? = some c → c.isDigit = false

/-- Every character is JSON whitespace. -/
def WsOnly (l : List Char) : Prop :=
  ∀ c ∈ l, isJsonWs c = true

theorem wsOnly_nlInd (d : Nat) : WsOnly (nlInd d) := by
  intro c hc
  simp only [nlInd, List.mem_cons, List.eq_of_mem_replicate] at hc
  rcases hc with h | h
  · simp [h, isJsonWs]
  · have := List.eq_of_mem_replicate h
    simp [this, isJsonWs]

theorem skipWs_append (ws cs : List Char) (h : WsOnly ws) :
    skipWs (ws ++ cs) = skipWs cs := by
  induction ws with
  | nil => rfl
  | cons c t ih =>
      have hc : isJsonWs c = true := h c (List.mem_cons_self c t)
      have ht : WsOnly t := fun x hx => h x (List.mem_cons_of_mem c hx)
      simp [skipWs, List.dropWhile, hc] at ih ⊢
      exact ih ht

theorem skipWs_cons (c : Char) (cs : List Char) (h : isJsonWs c = false) :
    skipWs (c :: cs) = c :: cs := by
  simp [skipWs, List.dropWhile, h]

theorem takeWhile_append_all (p : Char → Bool) :
    ∀ l rest : List Char, (∀ c ∈ l, p c = true) →
      (∀ c, rest.head? = some c → p c = false) →
      (l ++ rest).takeWhile p = l ∧ (l ++ rest).dropWhile p = rest := by
  intro l
  induction l with
  | nil =>
      intro rest _ hrest
      cases rest with
      | nil => simp
      | cons r t =>
          have := hrest r rfl
          simp [List.takeWhile, List.dropWhile, this]
  | cons c t ih =>
      intro rest hall hrest
      have hc : p c = true := hall c (List.mem_cons_self c t)
      have ht : ∀ x ∈ t, p x = true := fun x hx => hall x (List.mem_cons_of_mem c hx)
      have := ih rest ht hrest
      simp [List.takeWhile, List.dropWhile, hc, this.1, this.2]

theorem digitChar_spec : ∀ n, n < 10 →
    (digitChar n).isDigit = true ∧ (digitChar n).toNat = 48 + n := by decide

theorem hexVal_hexDigitChar : ∀ n, n < 16 → hexVal (hexDigitChar n) = some n := by decide

theorem digitsVal_append_one (a : List Char) (d : Char) :
    digitsVal (a ++ [d]) = digitsVal a * 10 + (d.toNat - 48) := by
  simp [digitsVal, List.foldl_append]

theorem natCharsAux_spec :
    ∀ fuel n, n < 10 ^ fuel → 0 < fuel →
      natCharsAux fuel n ≠ [] ∧ (∀ c ∈ natCharsAux fuel n, c.isDigit = true) ∧
        digitsVal (natCharsAux fuel n) = n := by
  intro fuel
  induction fuel with
  | zero => intro n _ h0; omega
  | succ f ih =>
      intro n hn _
      by_cases h10 : n < 10
      · refine ⟨by simp [natCharsAux, h10], ?_, ?_⟩
        · intro c hc
          simp [natCharsAux, h10] at hc
          simpa [hc] using (digitChar_spec n h10).1
        · simp [natCharsAux, h10, digitsVal, (digitChar_spec n h10).2]
      · have hdiv : n / 10 < 10 ^ f := by
          have : n < 10 * 10 ^ f := by
            calc n < 10 ^ (f + 1) := hn
            _ = 10 * 10 ^ f := by ring
          exact Nat.div_lt_of_lt_mul this
        have hpos : 0 < f := by
          by_contra hf
          have : f = 0 := by omega
          subst this
          simp at hdiv
          omega
        obtain ⟨hne, hdig, hval⟩ := ih (n / 10) hdiv hpos
        have hm : n % 10 < 10 := Nat.mod_lt _ (by omega)
        refine ⟨by simp [natCharsAux, h10], ?_, ?_⟩
        · intro c hc
          simp [natCharsAux, h10] at hc
          rcases hc with hc | hc
          · exact hdig c hc
          · simpa [hc] using (digitChar_spec _ hm).1
        · simp only [natCharsAux, h10, if_false]
          rw [digitsVal_append_one, hval, (digitChar_spec _ hm).2]
          omega

theorem nat_lt_ten_pow_succ (n : Nat) : n < 10 ^ (n + 1) := by
  calc n < 10 ^ n := Nat.lt_pow_self (by omega) n
  _ ≤ 10 ^ (n + 1) := Nat.pow_le_pow_right (by omega) (Nat.le_succ n)

theorem natChars_spec (n : Nat) :
    natChars n ≠ [] ∧ (∀ c ∈ natChars n, c.isDigit = true) ∧
      digitsVal (natChars n) = n :=
  natCharsAux_spec (n + 1) n (nat_lt_ten_pow_succ n) (by omega)

/-- Parsing the decimal-digit run at the head of `natChars m ++ rest`
recovers `m` and leaves `rest`. -/
theorem digitRun_natChars (m : Nat) (rest : List Char) (h : NoDigHead rest) :
    (natChars m ++ rest).takeWhile Char.isDigit = natChars m ∧
      (natChars m ++ rest).dropWhile Char.isDigit = rest := by
  exact takeWhile_append_all _ _ _ (natChars_spec m).2.1 h

theorem isDigit_not_ws (c : Char) (h : c.isDigit = true) : isJsonWs c = false := by
  by_contra hws
  have hws2 : isJsonWs c = true := by
    cases h2 : isJsonWs c
    · exact absurd h2 hws
    · rfl
  simp only [isJsonWs, Bool.or_eq_true, beq_iff_eq] at hws2
  rcases hws2 with ((rfl | rfl) | rfl) | rfl <;> exact absurd h (by decide)

theorem ws_not_digit (c : Char) (h : isJsonWs c = true) : c.isDigit = false := by
  simp only [isJsonWs, Bool.or_eq_true, beq_iff_eq] at h
  rcases h with ((rfl | rfl) | rfl) | rfl <;> decide

theorem string_mk_data : ∀ s : String, String.mk s.data = s
  | ⟨_⟩ => rfl

/-- Reading back an escaped string body recovers the original characters. -/
theorem parseStringBody_esc :
    ∀ l rest, parseStringBody (escChars l ++ '"' :: rest) = some (l, rest) := by
  intro l
  induction l with
  | nil =>
      intro rest
      show parseStringBody ('"' :: rest) = _
      unfold parseStringBody
      simp
  | cons c t ih =>
      intro rest
      show parseStringBody ((escChar c ++ escChars t) ++ '"' :: rest) = _
      rw [List.append_assoc]
      by_cases h1 : c = '"'
      · subst h1; show parseStringBody ('\\' :: '"' :: _) = _
        unfold parseStringBody; simp [unescChar, ih]
      by_cases h2 : c = '\\'
      · subst h2; show parseStringBody ('\\' :: '\\' :: _) = _
        unfold parseStringBody; simp [unescChar, ih]
      by_cases h3 : c = '\n'
      · subst h3; show parseStringBody ('\\' :: 'n' :: _) = _
        unfold parseStringBody; simp [unescChar, ih]
      by_cases h4 : c = '\r'
      · subst h4; show parseStringBody ('\\' :: 'r' :: _) = _
        unfold parseStringBody; simp [unescChar, ih]
      by_cases h5 : c = '\t'
      · subst h5; show parseStringBody ('\\' :: 't' :: _) = _
        unfold parseStringBody; simp [unescChar, ih]
      by_cases h6 : c = Char.ofNat 8
      · subst h6; show parseStringBody ('\\' :: 'b' :: _) = _
        unfold parseStringBody; simp [unescChar, ih]
      by_cases h7 : c = Char.ofNat 12
      · subst h7; show parseStringBody ('\\' :: 'f' :: _) = _
        unfold parseStringBody; simp [unescChar, ih]
      by_cases h8 : c.toNat < 32
      · have e1 : escChar c =
            '\\' :: 'u' :: '0' :: '0' :: hexDigitChar (c.toNat / 16) ::
              hexDigitChar (c.toNat % 16) :: [] := by
          simp [escChar, h1, h2, h3, h4, h5, h6, h7, h8]
        rw [e1]
        have hv1 : hexVal (hexDigitChar (c.toNat / 16)) = some (c.toNat / 16) :=
          hexVal_hexDigitChar _ (by omega)
        have hv2 : hexVal (hexDigitChar (c.toNat % 16)) = some (c.toNat % 16) :=
          hexVal_hexDigitChar _ (by omega)
        have hval : ((((0 * 16 + 0) * 16 + c.toNat / 16) * 16 + c.toNat % 16)) = c.toNat := by
          omega
        show parseStringBody ('\\' :: 'u' :: '0' :: '0' :: _ :: _ :: _) = _
        unfold parseStringBody
        simp only [if_neg (by decide : ¬('\\' = '"')), if_pos rfl,
          if_pos (rfl : ('u' : Char) = 'u'), hv1, hv2]
        have h0 : hexVal '0' = some 0 := by decide
        simp only [h0, ih, hval, Char.ofNat_toNat]
        simp [ih]
      · have e1 : escChar c = [c] := by
          simp [escChar, h1, h2, h3, h4, h5, h6, h7, h8]
        rw [e1]
        show parseStringBody (c :: _) = _
        unfold parseStringBody
        simp [h1, h2, ih]

theorem parseValue_skip_ws (fuel : Nat) (ws cs : List Char) (h : WsOnly ws) :
    parseValue fuel (ws ++ cs) = parseValue fuel cs := by
  cases fuel with
  | zero => rfl
  | succ f => simp only [parseValue, skipWs_append ws cs h]

theorem parseElems_skip_ws (fuel : Nat) (ws cs : List Char) (h : WsOnly ws) :
    parseElems fuel (ws ++ cs) = parseElems fuel cs := by
  cases fuel with
  | zero => rfl
  | succ f => simp only [parseElems, parseValue_skip_ws f ws cs h]

theorem parseMembers_skip_ws (fuel : Nat) (ws cs : List Char) (h : WsOnly ws) :
    parseMembers fuel (ws ++ cs) = parseMembers fuel cs := by
  cases fuel with
  | zero => rfl
  | succ f => simp only [parseMembers, skipWs_append ws cs h]

/-- Every printed JSON value starts with a character that is neither
whitespace nor a closing bracket. -/
theorem printJson_head (d : Nat) (j : Json) :
    ∃ c t, printJson d j = c :: t ∧ isJsonWs c = false ∧ c ≠ ']' := by
  cases j with
  | null => exact ⟨'n', _, rfl, by decide, by decide⟩
  | bool b =>
      cases b with
      | false => exact ⟨'f', _, rfl, by decide, by decide⟩
      | true => exact ⟨'t', _, rfl, by decide, by decide⟩
  | int n =>
      by_cases hneg : n < 0
      · refine ⟨'-', natChars (-n).toNat, ?_, by decide, by decide⟩
        simp [printJson, intChars, hneg]
      · obtain ⟨hne, hdig, -⟩ := natChars_spec n.toNat
        cases hnc : natChars n.toNat with
        | nil => exact absurd hnc hne
        | cons c t =>
            have hd : c.isDigit = true := hdig c (by rw [hnc]; exact List.mem_cons_self c t)
            refine ⟨c, t, ?_, isDigit_not_ws c hd, ?_⟩
            · simp [printJson, intChars, hneg, hnc]
            · rintro rfl; exact absurd hd (by decide)
  | str s => exact ⟨'"', _, rfl, by decide, by decide⟩
  | arr l =>
      cases l with
      | nil => exact ⟨'[', _, rfl, by decide, by decide⟩
      | cons x xs => exact ⟨'[', _, rfl, by decide, by decide⟩
  | obj m =>
      cases m with
      | nil => exact ⟨obrace, _, rfl, by decide, by decide⟩
      | cons k v ms => exact ⟨obrace, _, rfl, by decide, by decide⟩

end Feodo

namespace Feodo

set_option maxHeartbeats 1000000

theorem parse_print_main : ∀ fuel : Nat,
    (∀ j d rest, needJ j ≤ fuel → NoDigHead rest →
        parseValue fuel (printJson d j ++ rest) = some (j, rest)) ∧
    (∀ x xs d ws rest, needElems (.cons x xs) ≤ fuel → WsOnly ws →
        parseElems fuel (printJson d x ++ (printElems d xs ++ (ws ++ (']' :: rest)))) =
          some (.arr (.cons x xs), rest)) ∧
    (∀ k v ms d ws rest, needMembers (.cons k v ms) ≤ fuel → WsOnly ws →
        parseMembers fuel
            (quoteChars k ++ (':' :: (' ' :: (printJson d v ++
              (printMembers d ms ++ (ws ++ (cbrace :: rest))))))) =
          some (.obj (.cons k v ms), rest)) := by
  intro fuel
  induction fuel with
  | zero =>
      refine ⟨?_, ?_, ?_⟩
      · intro j d rest hle _
        cases j <;> simp [needJ] at hle
      · intro x xs d ws rest hle _
        simp [needElems] at hle
      · intro k v ms d ws rest hle _
        simp [needMembers] at hle
  | succ f ih =>
      obtain ⟨ihV, ihE, ihM⟩ := ih
      refine ⟨?_, ?_, ?_⟩
      · intro j d rest hle hrest
        cases j with
        | null =>
            have h1 := skipWs_cons 'n' ('u' :: 'l' :: 'l' :: rest) (by decide)
            simp [printJson, parseValue, h1]
        | bool b =>
            cases b with
            | true =>
                have h1 := skipWs_cons 't' ('r' :: 'u' :: 'e' :: rest) (by decide)
                simp [printJson, parseValue, h1]
            | false =>
                have h1 := skipWs_cons 'f' ('a' :: 'l' :: 's' :: 'e' :: rest) (by decide)
                simp [printJson, parseValue, h1]
        | int n =>
            by_cases hneg : n < 0
            · have hpj : printJson d (.int n) = '-' :: natChars (-n).toNat := by
                simp [printJson, intChars, hneg]
              obtain ⟨hne, hdig, hval⟩ := natChars_spec (-n).toNat
              obtain ⟨htake, hdrop⟩ := digitRun_natChars (-n).toNat rest hrest
              cases hnc : natChars (-n).toNat with
              | nil => exact absurd hnc hne
              | cons c0 t0 =>
                  have hd0 : c0.isDigit = true := by
                    exact hdig c0 (by rw [hnc]; exact List.mem_cons_self c0 t0)
                  have h1 : skipWs ('-' :: (natChars (-n).toNat ++ rest)) =
                      '-' :: (natChars (-n).toNat ++ rest) := skipWs_cons _ _ (by decide)
                  rw [hpj]
                  simp only [List.cons_append]
                  rw [show ('-' :: (natChars (-n).toNat ++ rest) : List Char) =
                    '-' :: (natChars (-n).toNat ++ rest) from rfl] at h1
                  simp only [parseValue, h1]
                  rw [hnc]
                  simp only [List.cons_append]
                  have hd0' : ((c0 :: (t0 ++ rest)).head?).isSome := rfl
                  simp only [if_neg (by decide : ¬(('-' : Char) = 'n')),
                    if_neg (by decide : ¬(('-' : Char) = 't')),
                    if_neg (by decide : ¬(('-' : Char) = 'f')),
                    if_neg (by decide : ¬(('-' : Char) = '"')),
                    if_pos (rfl : ('-' : Char) = '-')]
                  rw [show (c0 :: (t0 ++ rest) : List Char) = natChars (-n).toNat ++ rest by
                    rw [hnc]; simp]
                  simp only [hd0, if_pos]
                  rw [htake, hdrop, hval]
                  simp [hd0]
                  omega
            · have hpj : printJson d (.int n) = natChars n.toNat := by
                simp [printJson, intChars, hneg]
              obtain ⟨hne, hdig, hval⟩ := natChars_spec n.toNat
              obtain ⟨htake, hdrop⟩ := digitRun_natChars n.toNat rest hrest
              cases hnc : natChars n.toNat with
              | nil => exact absurd hnc hne
              | cons c0 t0 =>
                  have hd0 : c0.isDigit = true := by
                    exact hdig c0 (by rw [hnc]; exact List.mem_cons_self c0 t0)
                  have hnws : isJsonWs c0 = false := isDigit_not_ws c0 hd0
                  have hcn : ¬(c0 = 'n') := by rintro rfl; exact absurd hd0 (by decide)
                  have hct : ¬(c0 = 't') := by rintro rfl; exact absurd hd0 (by decide)
                  have hcf : ¬(c0 = 'f') := by rintro rfl; exact absurd hd0 (by decide)
                  have hcq : ¬(c0 = '"') := by rintro rfl; exact absurd hd0 (by decide)
                  have hcm : ¬(c0 = '-') := by rintro rfl; exact absurd hd0 (by decide)
                  rw [hpj, hnc]
                  simp only [List.cons_append]
                  have h1 : skipWs (c0 :: (t0 ++ rest)) = c0 :: (t0 ++ rest) :=
                    skipWs_cons _ _ hnws
                  simp only [parseValue, h1]
                  simp only [if_neg hcn, if_neg hct, if_neg hcf, if_neg hcq, if_neg hcm, hd0,
                    if_pos]
                  rw [show (c0 :: (t0 ++ rest) : List Char) = natChars n.toNat ++ rest by
                    rw [hnc]; simp]
                  rw [htake, hdrop, hval]
                  have : ((n.toNat : Int)) = n := by omega
                  simp [this]
        | str s =>
            have hpj : printJson d (.str s) ++ rest =
                '"' :: (escChars s.data ++ ('"' :: rest)) := by
              simp [printJson, quoteChars]
            rw [hpj]
            have h1 : skipWs ('"' :: (escChars s.data ++ ('"' :: rest))) =
                '"' :: (escChars s.data ++ ('"' :: rest)) := skipWs_cons _ _ (by decide)
            simp only [parseValue, h1]
            simp only [if_neg (by decide : ¬(('"' : Char) = 'n')),
              if_neg (by decide : ¬(('"' : Char) = 't')),
              if_neg (by decide : ¬(('"' : Char) = 'f')),
              if_pos (rfl : ('"' : Char) = '"')]
            rw [parseStringBody_esc s.data rest]
            simp [string_mk_data]
        | arr l =>
            cases l with
            | nil =>
                have hpj : printJson d (.arr .nil) ++ rest = '[' :: (']' :: rest) := by
                  simp [printJson]
                rw [hpj]
                have h1 : skipWs ('[' :: (']' :: rest)) = '[' :: (']' :: rest) :=
                  skipWs_cons _ _ (by decide)
                have h2 : skipWs (']' :: rest) = ']' :: rest := skipWs_cons _ _ (by decide)
                simp only [parseValue, h1]
                simp only [if_neg (by decide : ¬(('[' : Char) = 'n')),
                  if_neg (by decide : ¬(('[' : Char) = 't')),
                  if_neg (by decide : ¬(('[' : Char) = 'f')),
                  if_neg (by decide : ¬(('[' : Char) = '"')),
                  if_neg (by decide : ¬(('[' : Char) = '-')),
                  if_neg (by decide : ¬(('[' : Char).isDigit = true)),
                  if_pos (rfl : ('[' : Char) = '[')]
                simp [h2]
            | cons x xs =>
                have hle2 : needElems (.cons x xs) ≤ f := by
                  simp [needJ] at hle; omega
                obtain ⟨c0, t0, hhead, hnws, hnbr⟩ := printJson_head (d + 1) x
                have hpj : printJson d (.arr (.cons x xs)) ++ rest =
                    '[' :: (nlInd (d + 1) ++ (printJson (d + 1) x ++
                      (printElems (d + 1) xs ++ (nlInd d ++ (']' :: rest))))) := by
                  simp [printJson]
                rw [hpj]
                have h1 : skipWs ('[' :: (nlInd (d + 1) ++ (printJson (d + 1) x ++
                    (printElems (d + 1) xs ++ (nlInd d ++ (']' :: rest)))))) =
                    '[' :: (nlInd (d + 1) ++ (printJson (d + 1) x ++
                      (printElems (d + 1) xs ++ (nlInd d ++ (']' :: rest))))) :=
                  skipWs_cons _ _ (by decide)
                simp only [parseValue, h1]
                simp only [if_neg (by decide : ¬(('[' : Char) = 'n')),
                  if_neg (by decide : ¬(('[' : Char) = 't')),
                  if_neg (by decide : ¬(('[' : Char) = 'f')),
                  if_neg (by decide : ¬(('[' : Char) = '"')),
                  if_neg (by decide : ¬(('[' : Char) = '-')),
                  if_neg (by decide : ¬(('[' : Char).isDigit = true)),
                  if_pos (rfl : ('[' : Char) = '[')]
                have h2 : skipWs (nlInd (d + 1) ++ (printJson (d + 1) x ++
                    (printElems (d + 1) xs ++ (nlInd d ++ (']' :: rest))))) =
                    printJson (d + 1) x ++
                      (printElems (d + 1) xs ++ (nlInd d ++ (']' :: rest))) := by
                  rw [skipWs_append _ _ (wsOnly_nlInd (d + 1)), hhead]
                  exact skipWs_cons _ _ hnws
                rw [h2, hhead]
                simp only [List.cons_append, if_neg hnbr]
                rw [show (c0 :: (t0 ++ (printElems (d + 1) xs ++ (nlInd d ++ (']' :: rest)))) :
                    List Char) = printJson (d + 1) x ++
                      (printElems (d + 1) xs ++ (nlInd d ++ (']' :: rest))) by
                  rw [hhead]; simp]
                exact ihE x xs (d + 1) (nlInd d) rest hle2 (wsOnly_nlInd d)
        | obj m =>
            cases m with
            | nil =>
                have hpj : printJson d (.obj .nil) ++ rest = obrace :: (cbrace :: rest) := by
                  simp [printJson]
                rw [hpj]
                have h1 : skipWs (obrace :: (cbrace :: rest)) = obrace :: (cbrace :: rest) :=
                  skipWs_cons _ _ (by decide)
                have h2 : skipWs (cbrace :: rest) = cbrace :: rest := skipWs_cons _ _ (by decide)
                simp only [parseValue, h1]
                simp only [if_neg (by decide : ¬(obrace = 'n')),
                  if_neg (by decide : ¬(obrace = 't')),
                  if_neg (by decide : ¬(obrace = 'f')),
                  if_neg (by decide : ¬(obrace = '"')),
                  if_neg (by decide : ¬(obrace = '-')),
                  if_neg (by decide : ¬(obrace.isDigit = true)),
                  if_neg (by decide : ¬(obrace = '[')),
                  if_pos (rfl : obrace = obrace)]
                simp [h2]
            | cons k v ms =>
                have hle2 : needMembers (.cons k v ms) ≤ f := by
                  simp [needJ] at hle; omega
                have hpj : printJson d (.obj (.cons k v ms)) ++ rest =
                    obrace :: (nlInd (d + 1) ++ (quoteChars k ++ (':' :: (' ' ::
                      (printJson (d + 1) v ++ (printMembers (d + 1) ms ++
                        (nlInd d ++ (cbrace :: rest)))))))) := by
                  simp [printJson]
                rw [hpj]
                have h1 : skipWs (obrace :: (nlInd (d + 1) ++ (quoteChars k ++ (':' :: (' ' ::
                    (printJson (d + 1) v ++ (printMembers (d + 1) ms ++
                      (nlInd d ++ (cbrace :: rest))))))))) =
                    obrace :: (nlInd (d + 1) ++ (quoteChars k ++ (':' :: (' ' ::
                      (printJson (d + 1) v ++ (printMembers (d + 1) ms ++
                        (nlInd d ++ (cbrace :: rest)))))))) :=
                  skipWs_cons _ _ (by decide)
                simp only [parseValue, h1]
                simp only [if_neg (by decide : ¬(obrace = 'n')),
                  if_neg (by decide : ¬(obrace = 't')),
                  if_neg (by decide : ¬(obrace = 'f')),
                  if_neg (by decide : ¬(obrace = '"')),
                  if_neg (by decide : ¬(obrace = '-')),
                  if_neg (by decide : ¬(obrace.isDigit = true)),
                  if_neg (by decide : ¬(obrace = '[')),
                  if_pos (rfl : obrace = obrace)]
                have hq : quoteChars k ++ (':' :: (' ' ::
                    (printJson (d + 1) v ++ (printMembers (d + 1) ms ++
                      (nlInd d ++ (cbrace :: rest)))))) =
                    '"' :: (escChars k.data ++ ('"' :: (':' :: (' ' ::
                      (printJson (d + 1) v ++ (printMembers (d + 1) ms ++
                        (nlInd d ++ (cbrace :: rest)))))))) := by
                  simp [quoteChars]
                have h2 : skipWs (nlInd (d + 1) ++ (quoteChars k ++ (':' :: (' ' ::
                    (printJson (d + 1) v ++ (printMembers (d + 1) ms ++
                      (nlInd d ++ (cbrace :: rest)))))))) =
                    '"' :: (escChars k.data ++ ('"' :: (':' :: (' ' ::
                      (printJson (d + 1) v ++ (printMembers (d + 1) ms ++
                        (nlInd d ++ (cbrace :: rest)))))))) := by
                  rw [skipWs_append _ _ (wsOnly_nlInd (d + 1)), hq]
                  exact skipWs_cons _ _ (by decide)
                rw [h2]
                simp only [if_neg (by decide : ¬(('"' : Char) = cbrace))]
                have := ihM k v ms (d + 1) (nlInd d) rest hle2 (wsOnly_nlInd d)
                rw [hq] at this
                exact this
      · intro x xs d ws rest hle hws
        have hleV : needJ x ≤ f := by simp [needElems] at hle; omega
        have hnd : NoDigHead (printElems d xs ++ (ws ++ (']' :: rest))) := by
          cases xs with
          | nil =>
              cases ws with
              | nil =>
                  intro c hc
                  simp [printElems] at hc
                  rw [← hc]; decide
              | cons w t =>
                  intro c hc
                  simp [printElems] at hc
                  rw [← hc]
                  exact ws_not_digit w (hws w (List.mem_cons_self w t))
          | cons y ys =>
              intro c hc
              simp [printElems] at hc
              rw [← hc]; decide
        simp only [parseElems]
        rw [ihV x d (printElems d xs ++ (ws ++ (']' :: rest))) hleV hnd]
        cases xs with
        | nil =>
            have h2 : skipWs (printElems d .nil ++ (ws ++ (']' :: rest))) = ']' :: rest := by
              simp only [printElems, List.nil_append]
              rw [skipWs_append _ _ hws]
              exact skipWs_cons _ _ (by decide)
            simp only [h2]
        | cons y ys =>
            have hleE : needElems (.cons y ys) ≤ f := by
              simp [needElems] at hle ⊢; omega
            have h2 : skipWs (printElems d (.cons y ys) ++ (ws ++ (']' :: rest))) =
                ',' :: ((nlInd d ++ (printJson d y ++ (printElems d ys ++
                  (ws ++ (']' :: rest)))))) := by
              have : printElems d (.cons y ys) ++ (ws ++ (']' :: rest)) =
                  ',' :: ((nlInd d ++ (printJson d y ++ (printElems d ys ++
                    (ws ++ (']' :: rest)))))) := by
                simp [printElems]
              rw [this]
              exact skipWs_cons _ _ (by decide)
            simp only [h2]
            have h3 : parseElems f (nlInd d ++ (printJson d y ++ (printElems d ys ++
                (ws ++ (']' :: rest))))) = some (.arr (.cons y ys), rest) := by
              rw [parseElems_skip_ws f _ _ (wsOnly_nlInd d)]
              exact ihE y ys d ws rest hleE hws
            simp [h3]
      · intro k v ms d ws rest hle hws
        have hleV : needJ v ≤ f := by simp [needMembers] at hle; omega
        have hin : quoteChars k ++ (':' :: (' ' :: (printJson d v ++
            (printMembers d ms ++ (ws ++ (cbrace :: rest)))))) =
            '"' :: (escChars k.data ++ ('"' :: (':' :: (' ' :: (printJson d v ++
              (printMembers d ms ++ (ws ++ (cbrace :: rest)))))))) := by
          simp [quoteChars]
        rw [hin]
        have hnd : NoDigHead (printMembers d ms ++ (ws ++ (cbrace :: rest))) := by
          cases ms with
          | nil =>
              cases ws with
              | nil =>
                  intro c hc
                  simp [printMembers] at hc
                  rw [← hc]; decide
              | cons w t =>
                  intro c hc
                  simp [printMembers] at hc
                  rw [← hc]
                  exact ws_not_digit w (hws w (List.mem_cons_self w t))
          | cons k2 v2 ms2 =>
              intro c hc
              simp [printMembers] at hc
              rw [← hc]; decide
        simp only [parseMembers]
        have h1 : skipWs ('"' :: (escChars k.data ++ ('"' :: (':' :: (' ' :: (printJson d v ++
            (printMembers d ms ++ (ws ++ (cbrace :: rest))))))))) =
            '"' :: (escChars k.data ++ ('"' :: (':' :: (' ' :: (printJson d v ++
              (printMembers d ms ++ (ws ++ (cbrace :: rest)))))))) :=
          skipWs_cons _ _ (by decide)
        rw [h1]
        have h2 : skipWs (':' :: (' ' :: (printJson d v ++
            (printMembers d ms ++ (ws ++ (cbrace :: rest)))))) =
            ':' :: (' ' :: (printJson d v ++
              (printMembers d ms ++ (ws ++ (cbrace :: rest))))) :=
          skipWs_cons _ _ (by decide)
        have h3 : parseValue f (' ' :: (printJson d v ++
            (printMembers d ms ++ (ws ++ (cbrace :: rest))))) =
            some (v, printMembers d ms ++ (ws ++ (cbrace :: rest))) := by
          have h30 : (' ' :: (printJson d v ++ (printMembers d ms ++ (ws ++ (cbrace :: rest)))) :
              List Char) = [' '] ++ (printJson d v ++
                (printMembers d ms ++ (ws ++ (cbrace :: rest)))) := rfl
          rw [h30, parseValue_skip_ws f [' '] _ (by intro c hc; simp at hc; subst hc; decide)]
          exact ihV v d _ hleV hnd
        simp only [if_pos (rfl : ('"' : Char) = '"'), parseStringBody_esc k.data, h2, h3]
        cases ms with
        | nil =>
            have h4 : skipWs (printMembers d .nil ++ (ws ++ (cbrace :: rest))) =
                cbrace :: rest := by
              simp only [printMembers, List.nil_append]
              rw [skipWs_append _ _ hws]
              exact skipWs_cons _ _ (by decide)
            simp only [h4]
            simp [cbrace, string_mk_data]
        | cons k2 v2 ms2 =>
            have hleM : needMembers (.cons k2 v2 ms2) ≤ f := by
              simp [needMembers] at hle ⊢; omega
            have h4 : skipWs (printMembers d (.cons k2 v2 ms2) ++ (ws ++ (cbrace :: rest))) =
                ',' :: (nlInd d ++ (quoteChars k2 ++ (':' :: (' ' :: (printJson d v2 ++
                  (printMembers d ms2 ++ (ws ++ (cbrace :: rest)))))))) := by
              have : printMembers d (.cons k2 v2 ms2) ++ (ws ++ (cbrace :: rest)) =
                  ',' :: (nlInd d ++ (quoteChars k2 ++ (':' :: (' ' :: (printJson d v2 ++
                    (printMembers d ms2 ++ (ws ++ (cbrace :: rest)))))))) := by
                simp [printMembers]
              rw [this]
              exact skipWs_cons _ _ (by decide)
            simp only [h4]
            have h5 : parseMembers f (nlInd d ++ (quoteChars k2 ++ (':' :: (' ' ::
                (printJson d v2 ++ (printMembers d ms2 ++ (ws ++ (cbrace :: rest)))))))) =
                some (.obj (.cons k2 v2 ms2), rest) := by
              rw [parseMembers_skip_ws f _ _ (wsOnly_nlInd d)]
              exact ihM k2 v2 ms2 d ws rest hleM hws
            simp [h5, string_mk_data]

end Feodo

namespace Feodo

mutual

theorem needJ_le_printLen (j : Json) (d : Nat) : needJ j ≤ (printJson d j).length := by
  cases j with
  | null => simp [needJ, printJson]
  | bool b => cases b <;> simp [needJ, printJson]
  | int n =>
      have h1 : natChars n.toNat ≠ [] := (natChars_spec n.toNat).1
      have h2 : natChars (-n).toNat ≠ [] := (natChars_spec (-n).toNat).1
      have h1l : 0 < (natChars n.toNat).length := List.length_pos.mpr h1
      have h2l : 0 < (natChars (-n).toNat).length := List.length_pos.mpr h2
      by_cases hneg : n < 0 <;> simp [needJ, printJson, intChars, hneg] <;> omega
  | str s => simp [needJ, printJson, quoteChars]
  | arr l =>
      cases l with
      | nil => simp [needJ, needElems, printJson]
      | cons x xs =>
          have h1 := needJ_le_printLen x (d + 1)
          have h2 := needElems_le_printLen xs (d + 1)
          simp [needJ, needElems, printJson, nlInd] at h1 h2 ⊢
          omega
  | obj m =>
      cases m with
      | nil => simp [needJ, needMembers, printJson]
      | cons k v ms =>
          have h1 := needJ_le_printLen v (d + 1)
          have h2 := needMembers_le_printLen ms (d + 1)
          simp [needJ, needMembers, printJson, nlInd, quoteChars] at h1 h2 ⊢
          omega

theorem needElems_le_printLen (l : JsonList) (d : Nat) :
    needElems l ≤ (printElems d l).length + 1 := by
  cases l with
  | nil => simp [needElems, printElems]
  | cons x xs =>
      have h1 := needJ_le_printLen x d
      have h2 := needElems_le_printLen xs d
      simp [needElems, printElems, nlInd] at h1 h2 ⊢
      omega

theorem needMembers_le_printLen (m : JsonMembers) (d : Nat) :
    needMembers m ≤ (printMembers d m).length + 1 := by
  cases m with
  | nil => simp [needMembers, printMembers]
  | cons k v ms =>
      have h1 := needJ_le_printLen v d
      have h2 := needMembers_le_printLen ms d
      simp [needMembers, printMembers, nlInd, quoteChars] at h1 h2 ⊢
      omega

end

/-- `json.loads` inverts `json.dumps`: the cache file written by
`save_cache` reads back as exactly the value that was serialized. -/
theorem parseJson_dumpsJson (j : Json) : parseJson (dumpsJson j) = some j := by
  have hdata : (dumpsJson j).data = printJson 0 j := rfl
  have hlen : (dumpsJson j).length = (printJson 0 j).length := rfl
  have hle : needJ j ≤ (printJson 0 j).length + 1 :=
    le_trans (needJ_le_printLen j 0) (by omega)
  have hnd : NoDigHead ([] : List Char) := by intro c hc; simp at hc
  have h := (parse_print_main ((printJson 0 j).length + 1)).1 j 0 [] hle hnd
  rw [List.append_nil] at h
  simp only [parseJson, hdata, hlen, h]
  rfl

end Feodo

namespace Feodo

/-! ## DataFrame model

A pandas `DataFrame` is modelled column-wise: a list of named columns (in
order), each a list of nullable cells.  Cell values carry the payloads this
pipeline stores: strings, integers (`Int64` ports), UTC timestamps
(`vtime`, in whole seconds), and provider-returned JSON fragments
(`vjson`, written by the geolocation merge). -/

inductive Value : Type where
  | vstr : String → Value
  | vint : Int → Value
  | vtime : Int → Value
  | vjson : Json → Value

/-- A nullable cell (`None`/`NaN`/`NaT` is `none`). -/
abbrev Cell := Option Value

/-- A pandas DataFrame: named columns in order.  (Duplicate column names are
representable, as in pandas.) -/
abbrev DataFrame := List (String × List Cell)

/-- `name in df.columns`. -/
def hasCol (df : DataFrame) (name : String) : Bool :=
  df.any (fun col => col.1 == name)

/-- `df[name]`: the first column with the given name. -/
def getCol (df : DataFrame) (name : String) : Option (List Cell) :=
  (df.find? (fun col => col.1 == name)).map (·.2)

/-- `df[name] = cells`: replace the first column with the given name in
place, or append a new column. -/
def setCol : DataFrame → String → List Cell → DataFrame
  | [], name, cells => [(name, cells)]
  | col :: cols, name, cells =>
      if col.1 == name then (name, cells) :: cols
      else col :: setCol cols name cells

/-- `str(value)` as used by `.astype(str)`.  Provider fragments are not
stringified meaningfully (never exercised by the pipeline). -/
def pyStrVal : Value → String
  | .vstr s => s
  | .vint n => toString n
  | .vtime t => toString t
  | .vjson _ => "json"

/-- `.astype(str)` on one cell: a null floats to the string `"nan"`. -/
def cellToStr : Cell → String
  | none => "nan"
  | some v => pyStrVal v

/-! ## Column normalization (`normalize_cols`)

`df.columns.str.strip().str.lower().str.replace(" ", "_").str.replace("-", "_")`,
modelled character-wise (ASCII lowering; both replacements are literal
single-character substitutions). -/

/-- Python whitespace stripped by `str.strip()` (ASCII portion): space, tab,
newline, carriage return, vertical tab, form feed. -/
def isStripWs (c : Char) : Bool :=
  c.toNat == 32 || c.toNat == 9 || c.toNat == 10 || c.toNat == 13 ||
    c.toNat == 11 || c.toNat == 12

/-- ASCII lowering of one character (`str.lower()` on column names):
`A`–`Z` (codes 65–90) shift by 32. -/
def lowerChar (c : Char) : Char :=
  if 65 ≤ c.toNat ∧ c.toNat ≤ 90 then Char.ofNat (c.toNat + 32) else c

/-- Replace every occurrence of the character `a` by `b`. -/
def replChar (a b : Char) (c : Char) : Char :=
  if c = a then b else c

/-- Drop trailing characters satisfying `p`. -/
def dropTrailing (p : Char → Bool) (cs : List Char) : List Char :=
  (cs.reverse.dropWhile p).reverse

/-- `str.strip()`. -/
def stripChars (cs : List Char) : List Char :=
  dropTrailing isStripWs (cs.dropWhile isStripWs)

/-- One column name through
`strip → lower → replace(" ","_") → replace("-","_")`. -/
def normName (s : String) : String :=
  ⟨(((stripChars s.data).map lowerChar).map (replChar ' ' '_')).map (replChar '-' '_')⟩

/-- `normalize_cols`: rename every column. -/
def normalize_cols (df : DataFrame) : DataFrame :=
  df.map (fun col => (normName col.1, col.2))

/-! ## Datetime parsing (`to_datetime`) -/

/-- `to_datetime`: for the two date columns (when present), coerce each cell
with `pd.to_datetime(..., errors="coerce", utc=True)`, modelled by the
ambient parse function `parseDT` (`none` = unparseable = `NaT`). -/
def to_datetime (parseDT : Value → Option Int) (df : DataFrame) : DataFrame :=
  df.map (fun col =>
    if col.1 == "first_seen_utc" || col.1 == "last_online" then
      (col.1, col.2.map (fun cell => cell.bind (fun v => (parseDT v).map Value.vtime)))
    else col)

/-! ## Port enrichment (`port_to_service_name` / `enrich_ports`) -/

/-- The constant fallback name. -/
def PORT_NAME_FALLBACK : String := "uncommon"

/-- `socket.getservbyport(int(port), proto)` consults the host service
registry, modelled as the ambient partial map `registry`; any lookup
failure (unknown port, out-of-range port) is an exception, caught and
mapped to the fallback. -/
def port_to_service_name (registry : Int → String → Option String)
    (port : Int) (proto : String := "tcp") : String :=
  match registry port proto with
  | some name => name
  | none => PORT_NAME_FALLBACK

/-- `pd.to_numeric(cell, errors="coerce")` on one cell (integer payloads;
non-numeric text coerces to null). -/
def coerceNumeric : Cell → Option Int
  | some (.vint n) => some n
  | some (.vstr s) => s.toInt?
  | _ => none

/-- `enrich_ports`: coerce `dst_port` to nullable integers, then attach
`dst_port_name` (null port → null name). -/
def enrich_ports (registry : Int → String → Option String) (df : DataFrame) :
    DataFrame :=
  if hasCol df "dst_port" then
    let coerced := ((getCol df "dst_port").getD []).map coerceNumeric
    let df1 := setCol df "dst_port" (coerced.map (fun o => o.map Value.vint))
    setCol df1 "dst_port_name"
      (coerced.map (fun o => o.map (fun p => Value.vstr (port_to_service_name registry p))))
  else df

/-! ## Lifespan (`compute_lifespan`) -/

/-- `(last_online - first_seen_utc).dt.days` on one row: the timedelta in
whole days (floor division of seconds, as pandas components round toward
negative infinity); null if either timestamp is null. -/
def lifespanCell (lastOnline firstSeen : Cell) : Cell :=
  match lastOnline, firstSeen with
  | some (.vtime t2), some (.vtime t1) => some (.vint (Int.fdiv (t2 - t1) 86400))
  | _, _ => none

/-- `compute_lifespan`: add `lifespan_days` when both date columns exist. -/
def compute_lifespan (df : DataFrame) : DataFrame :=
  if hasCol df "first_seen_utc" && hasCol df "last_online" then
    setCol df "lifespan_days"
      (List.zipWith lifespanCell ((getCol df "last_online").getD [])
        ((getCol df "first_seen_utc").getD []))
  else df

/-! ## Cache (`load_cache` / `save_cache`)

The filesystem is an association list from path to file text. -/

/-- File contents by path. -/
abbrev FS := List (String × String)

/-- Read a file if it exists. -/
def fsLookup (fs : FS) (path : String) : Option String :=
  (fs.find? (fun f => f.1 == path)).map (·.2)

/-- Write (create or overwrite) a file. -/
def fsWrite : FS → String → String → FS
  | [], path, text => [(path, text)]
  | f :: fsr, path, text =>
      if f.1 == path then (path, text) :: fsr else f :: fsWrite fsr path text

/-- `load_cache(cache_path)`: the parsed object when the file exists and its
text parses as a JSON object; an empty mapping when the path is `None`, the
file is absent, or parsing fails.  (The program only ever writes objects to
the cache file, so non-object documents are outside the model.) -/
def load_cache (fs : FS) (cache_path : Option String) : Dict :=
  match cache_path with
  | none => []
  | some p =>
    match fsLookup fs p with
    | none => []
    | some text =>
      match parseJson text with
      | some (.obj ms) => membersList ms
      | _ => []

/-- `save_cache(cache_path, cache)`: serialize the whole mapping with
`json.dumps(cache, ensure_ascii=False, indent=2)` and overwrite the file
(after `mkdir(parents=True)`, a no-op in this model); `None` path: no-op. -/
def save_cache (fs : FS) (cache_path : Option String) (cache : Dict) : FS :=
  match cache_path with
  | none => fs
  | some p => fsWrite fs p (dumpsJson (.obj (toMembers cache)))

end Feodo

namespace Feodo

/-! ## Batch query (`ip_api_batch_query` / `rate_limited_batches`) -/

/-- The ip-api batch endpoint. -/
def IP_API_URL : String := "http://ip-api.com/batch"

/-- The JSON payload posted by `ip_api_batch_query`: one `{"query": ip}`
object per IP in the chunk (the network call itself is the ambient
oracle). -/
def ip_api_batch_query_payload (ips : List String) : List Json :=
  ips.map (fun ip => Json.obj (.cons "query" (.str ip) .nil))

/-- `rate_limited_batches(items, batch_size, rpm)`: the chunks yielded by
`for i in range(0, len(items), batch_size)`, each paired with the seconds
slept after it (`none` when `i + batch_size < len(items)` fails, i.e. after
the last chunk).  The slept duration is `60.0 / max(1, rpm)`.  A zero
`batch_size` makes `range` raise `ValueError` (`none`); a negative
`batch_size` makes the `range` empty, so nothing is yielded. -/
def rate_limited_batches (items : List String) (batch_size rpm : Int) :
    Option (List (List String × Option ℚ)) :=
  if batch_size = 0 then none
  else if batch_size < 0 then some []
  else
    let n := items.length
    let bs := batch_size.toNat
    some ((List.range ((n + bs - 1) / bs)).map (fun j =>
      ((items.drop (j * bs)).take bs,
        if j * bs + bs < n then some ((60 : ℚ) / ((max 1 rpm : Int) : ℚ)) else none)))

/-! ## Geolocation enrichment (`enrich_geolocation`) -/

/-- The failure record synthesized for one IP when a chunk's network call
raises: `{"query": ip, "status": "fail", "message": str(e)}`. -/
def failRecord (ip : String) (e : String) : Json :=
  .obj (.cons "query" (.str ip) (.cons "status" (.str "fail")
    (.cons "message" (.str e) .nil)))

/-- Store a batch's result records in the cache: for each record, key it by
its echoed `query` field when that is a non-empty string (`if q:`). -/
def insertResults (cache : Dict) (results : List Json) : Dict :=
  results.foldl (fun c res =>
    match jGet res "query" with
    | some (.str q) => if q == "" then c else dictInsert c q res
    | _ => c) cache

/-- The per-chunk loop of `enrich_geolocation`: query each chunk through the
oracle (synthesizing failure records when the call raises), merge the
records into the cache, and persist the cache after every batch.  Returns
the final cache, the final filesystem, and the trace of chunks sent to the
network, in order. -/
def processChunks (api : List String → Except String (List Json))
    (cache_path : Option String) :
    Dict → FS → List (List String) → Dict × FS × List (List String)
  | cache, fs, [] => (cache, fs, [])
  | cache, fs, chunk :: rest =>
      let results :=
        match api chunk with
        | .ok rs => rs
        | .error e => chunk.map (fun ip => failRecord ip e)
      let cache2 := insertResults cache results
      let fs2 := save_cache fs cache_path cache2
      let out := processChunks api cache_path cache2 fs2 rest
      (out.1, out.2.1, chunk :: out.2.2)

/-- The geo columns appended to the frame, keyed by the provider fields
`map_ip` reads. -/
def geoFields : List (String × String) :=
  [("geo_status", "status"), ("country", "country"), ("country_code", "countryCode"),
   ("region", "regionName"), ("city", "city"), ("lat", "lat"), ("lon", "lon"),
   ("isp", "isp"), ("org", "org"), ("asn", "as"), ("timezone", "timezone")]

/-- `map_ip(ip)`: the row of geo values for one stringified IP, from its
cache entry (`cache.get(str(ip), {})`). -/
def map_ip (cache : Dict) (ip : String) : List Cell :=
  let r := (dictLookup cache ip).getD (.obj .nil)
  geoFields.map (fun fld => (jGet r fld.2).map Value.vjson)

/-- The cache loaded at the top of `enrich_geolocation`:
`load_cache(cache_path) if cache_path else {}`. -/
def loadedCache (fs : FS) (cache_path : Option String) : Dict :=
  match cache_path with
  | some p => load_cache fs (some p)
  | none => []

/-- Lexicographic code-point comparison on character lists (Python's string
ordering, used by `sorted`). -/
def charsLe : List Char → List Char → Bool
  | [], _ => true
  | c1 :: t1, c2 :: t2 =>
      if c1.toNat < c2.toNat then true
      else if c2.toNat < c1.toNat then false
      else charsLe t1 t2
  | _ :: _, [] => false

/-- `a <= b` on Python strings. -/
def strLe (a b : String) : Bool :=
  charsLe a.data b.data

/-- `unique_ips = sorted({ip for ip in df["dst_ip"].dropna().astype(str) if ip})`:
the distinct non-empty stringified IPs, in ascending order. -/
def unique_ips (df : DataFrame) : List String :=
  List.insertionSort (fun a b => strLe a b = true)
    (((((getCol df "dst_ip").getD []).filterMap (fun cell => cell.map pyStrVal)).filter
      (fun ip => ip ≠ "")).dedup)

/-- `to_query = [ip for ip in unique_ips if ip not in cache]`. -/
def to_query (fs : FS) (cache_path : Option String) (df : DataFrame) : List String :=
  (unique_ips df).filter (fun ip => !(dictContains (loadedCache fs cache_path) ip))

/-- What a run of `enrich_geolocation` produces: the returned frame, the
filesystem after the per-batch cache saves, and the chunks sent to the
network. -/
structure GeoEffect where
  frame : DataFrame
  fs : FS
  calls : List (List String)

/-- `enrich_geolocation(df, cache_path, rpm, batch_size)`.  The argument
frame is copied up front (`df = df.copy()`); without a `dst_ip` column the
copy is returned untouched.  Otherwise: load the cache, sort the unique
non-empty stringified IPs, keep those not already cached, query them in
rate-limited batches (caching and saving after each), then append the geo
columns built from the final cache (`apply(pd.Series)` + `pd.concat`,
modelled as the transpose of the per-row `map_ip` lists).  `none` models
the `ValueError` raised by `range` on a zero batch size. -/
def enrich_geolocation (api : List String → Except String (List Json))
    (fs : FS) (cache_path : Option String) (df : DataFrame)
    (rpm : Int := 40) (batch_size : Int := 100) : Option GeoEffect :=
  if hasCol df "dst_ip" = false then some ⟨df, fs, []⟩
  else
    match rate_limited_batches (to_query fs cache_path df) batch_size rpm with
    | none => none
    | some batches =>
      let chunks := batches.map (·.1)
      let out := processChunks api cache_path (loadedCache fs cache_path) fs chunks
      let keys := ((getCol df "dst_ip").getD []).map cellToStr
      let geo := (geoFields.map Prod.fst).zip (List.transpose (keys.map (map_ip out.1)))
      some ⟨df ++ geo, out.2.1, out.2.2⟩

/-! ## CLI defaults (`main`) -/

/-- `--batch` default (argparse; the help text says `<=100` but `main` does
not validate or clamp the value). -/
def main_default_batch : Int := 100

/-- `--rps` default. -/
def main_default_rpm : Int := 40

/-- `--cache` default. -/
def main_default_cache : String := "data/ip_geo_cache.json"

end Feodo

namespace Feodo

/-! ## Python object view of the pipeline stages

Each stage receives its argument by object reference.  To state that a
stage does not mutate the caller's object, the heap of live frames is made
explicit: a call allocates the `df.copy()` the body starts with, performs
the body's column assignments on that copy, and returns the copy's
reference.  The caller's object is whatever its reference points to
afterwards. -/

/-- The heap of live `DataFrame` objects; references are indices. -/
abbrev PyHeap := List DataFrame

/-- Dereference (absent references read as an empty frame). -/
def heapGet (h : PyHeap) (r : Nat) : DataFrame :=
  (h.get? r).getD []

/-- In-place mutation of the object at `r`. -/
def heapSet (h : PyHeap) (r : Nat) (df : DataFrame) : PyHeap :=
  h.set r df

/-- `df.copy()`: allocate a fresh object with equal contents. -/
def heapAlloc (h : PyHeap) (df : DataFrame) : PyHeap × Nat :=
  (h ++ [df], h.length)

/-- `normalize_cols(df)` as a heap computation: copy, then assign
`df.columns` on the copy. -/
def normalize_cols_py (h : PyHeap) (r : Nat) : PyHeap × Nat :=
  let ar := heapAlloc h (heapGet h r)
  (heapSet ar.1 ar.2 (normalize_cols (heapGet ar.1 ar.2)), ar.2)

/-- `to_datetime(df)` as a heap computation. -/
def to_datetime_py (parseDT : Value → Option Int) (h : PyHeap) (r : Nat) :
    PyHeap × Nat :=
  let ar := heapAlloc h (heapGet h r)
  (heapSet ar.1 ar.2 (to_datetime parseDT (heapGet ar.1 ar.2)), ar.2)

/-- `enrich_ports(df)` as a heap computation. -/
def enrich_ports_py (registry : Int → String → Option String)
    (h : PyHeap) (r : Nat) : PyHeap × Nat :=
  let ar := heapAlloc h (heapGet h r)
  (heapSet ar.1 ar.2 (enrich_ports registry (heapGet ar.1 ar.2)), ar.2)

/-- `compute_lifespan(df)` as a heap computation. -/
def compute_lifespan_py (h : PyHeap) (r : Nat) : PyHeap × Nat :=
  let ar := heapAlloc h (heapGet h r)
  (heapSet ar.1 ar.2 (compute_lifespan (heapGet ar.1 ar.2)), ar.2)

/-- `enrich_geolocation(df, ...)` as a heap computation (`none` when the
pure stage raises). -/
def enrich_geolocation_py (api : List String → Except String (List Json))
    (fs : FS) (cache_path : Option String) (h : PyHeap) (r : Nat)
    (rpm batch_size : Int) : Option (PyHeap × Nat × FS) :=
  let ar := heapAlloc h (heapGet h r)
  match enrich_geolocation api fs cache_path (heapGet ar.1 ar.2) rpm batch_size with
  | none => none
  | some eff => some (heapSet ar.1 ar.2 eff.frame, ar.2, eff.fs)

end Feodo

namespace Feodo

/-! ## Supporting lemmas -/

theorem fsLookup_fsWrite (fs : FS) (p : String) (text : String) :
    fsLookup (fsWrite fs p text) p = some text := by
  induction fs with
  | nil => simp [fsWrite, fsLookup]
  | cons f fsr ih =>
      by_cases h : f.1 == p
      · simp [fsWrite, fsLookup, h]
      · simp only [fsWrite]
        rw [if_neg (by simpa using h)]
        simp only [fsLookup, List.find?]
        rw [show (f.1 == p) = false by simpa using h]
        exact ih

theorem membersList_toMembers (d : Dict) : membersList (toMembers d) = d := by
  induction d with
  | nil => rfl
  | cons kv rest ih => cases kv; simp [toMembers, membersList, ih]

theorem getCol_setCol (df : DataFrame) (name : String) (cells : List Cell) :
    getCol (setCol df name cells) name = some cells := by
  induction df with
  | nil => simp [setCol, getCol]
  | cons col cols ih =>
      by_cases h : col.1 == name
      · simp [setCol, getCol, h]
      · simp only [setCol]
        rw [if_neg (by simpa using h)]
        simp only [getCol, List.find?] at ih ⊢
        rw [show (col.1 == name) = false by simpa using h]
        exact ih

theorem dictLookup_insert_self (d : Dict) (k : String) (v : Json) :
    dictLookup (dictInsert d k v) k = some v := by
  induction d with
  | nil => simp [dictInsert, dictLookup]
  | cons kv rest ih =>
      by_cases h : kv.1 == k
      · simp [dictInsert, dictLookup, h]
      · simp only [dictInsert]
        rw [if_neg (by simpa using h)]
        simp only [dictLookup]
        rw [if_neg (by simpa using h)]
        exact ih

theorem dictLookup_insert_ne (d : Dict) (k k2 : String) (v : Json) (h : k ≠ k2) :
    dictLookup (dictInsert d k v) k2 = dictLookup d k2 := by
  induction d with
  | nil => simp [dictInsert, dictLookup, h]
  | cons kv rest ih =>
      by_cases h2 : kv.1 == k
      · have hk : kv.1 = k := by simpa using h2
        simp [dictInsert, dictLookup, h2, hk, h]
      · simp only [dictInsert]
        rw [if_neg (by simpa using h2)]
        simp only [dictLookup]
        by_cases h3 : kv.1 == k2
        · simp [h3]
        · rw [if_neg (by simpa using h3), if_neg (by simpa using h3)]
          exact ih

end Feodo

namespace Feodo

/-! ## Claim C6 — cache loading -/

/-- C6: for every cache path, `load_cache` returns the file's parsed
contents as a mapping when the file exists and parses (as an object), and
returns an empty mapping — without raising — when the file is absent, the
text fails to parse, or no path is configured. -/
theorem C6_load_cache_total (fs : FS) (p : String) :
    (fsLookup fs p = none → load_cache fs (some p) = []) ∧
    (∀ text, fsLookup fs p = some text → parseJson text = none →
      load_cache fs (some p) = []) ∧
    (∀ text ms, fsLookup fs p = some text → parseJson text = some (.obj ms) →
      load_cache fs (some p) = membersList ms) ∧
    load_cache fs none = [] := by
  refine ⟨?_, ?_, ?_, rfl⟩
  · intro h; simp [load_cache, h]
  · intro text h1 h2; simp [load_cache, h1, h2]
  · intro text ms h1 h2; simp [load_cache, h1, h2]

/-- Witness for C6 at concrete inputs: a missing file and an unparseable
file both load as the empty mapping; a saved object loads back. -/
theorem C6_load_cache_total_witness :
    load_cache ([("a.json", "not json")] : FS) (some "a.json") = [] ∧
    load_cache ([("a.json", "not json")] : FS) (some "b.json") = [] := by
  constructor
  · exact (C6_load_cache_total [("a.json", "not json")] "a.json").2.1 "not json" rfl rfl
  · exact (C6_load_cache_total [("a.json", "not json")] "b.json").1 rfl

/-! ## Claim C7 — cache round-trip -/

/-- C7: saving any mapping (JSON-serializable in this model: string keys,
`Json` entries) to a path and loading from that path returns an equal
mapping. -/
theorem C7_cache_roundtrip (fs : FS) (p : String) (cache : Dict)
    (hkeys : (cache.map Prod.fst).Nodup) :
    load_cache (save_cache fs (some p) cache) (some p) = cache := by
  simp only [save_cache, load_cache, fsLookup_fsWrite, parseJson_dumpsJson,
    membersList_toMembers]

/-- Witness for C7: a concrete one-entry cache survives the round-trip. -/
theorem C7_cache_roundtrip_witness :
    load_cache (save_cache [] (some "data/ip_geo_cache.json")
        [("1.2.3.4", failRecord "1.2.3.4" "timed out")])
      (some "data/ip_geo_cache.json") =
      [("1.2.3.4", failRecord "1.2.3.4" "timed out")] :=
  C7_cache_roundtrip [] "data/ip_geo_cache.json"
    [("1.2.3.4", failRecord "1.2.3.4" "timed out")] (by decide)

/-! ## Claim C4 — lifespan -/

/-- A one-row frame with `first_seen_utc` 2024-01-01T00:00Z and
`last_online` 2024-01-05T00:00Z (epoch seconds). -/
def dfLifespanPos : DataFrame :=
  [("first_seen_utc", [some (.vtime 1704067200)]),
   ("last_online", [some (.vtime 1704412800)])]

/-- The same frame with the two timestamps swapped. -/
def dfLifespanNeg : DataFrame :=
  [("first_seen_utc", [some (.vtime 1704412800)]),
   ("last_online", [some (.vtime 1704067200)])]

/-- C4: with both date columns present, `compute_lifespan` adds
`lifespan_days` = whole-day difference `last_online − first_seen_utc`
row-wise; on the 2024-01-01 → 2024-01-05 example it is 4, and when
`last_online` precedes `first_seen_utc` the negative value is kept as-is
(the example yields −4). -/
theorem C4_lifespan_days :
    (∀ df : DataFrame, hasCol df "first_seen_utc" = true →
      hasCol df "last_online" = true →
      getCol (compute_lifespan df) "lifespan_days" =
        some (List.zipWith lifespanCell ((getCol df "last_online").getD [])
          ((getCol df "first_seen_utc").getD []))) ∧
    (∀ t1 t2 : Int, lifespanCell (some (.vtime t2)) (some (.vtime t1)) =
      some (.vint (Int.fdiv (t2 - t1) 86400))) ∧
    getCol (compute_lifespan dfLifespanPos) "lifespan_days" = some [some (.vint 4)] ∧
    getCol (compute_lifespan dfLifespanNeg) "lifespan_days" = some [some (.vint (-4))] := by
  refine ⟨?_, fun t1 t2 => rfl, by rfl, by rfl⟩
  intro df h1 h2
  simp only [compute_lifespan, h1, h2, Bool.and_self, if_true, getCol_setCol]

/-- Witness for C4: applying the frame-level statement to the concrete
positive example. -/
theorem C4_lifespan_days_witness :
    getCol (compute_lifespan dfLifespanPos) "lifespan_days" =
      some (List.zipWith lifespanCell ((getCol dfLifespanPos "last_online").getD [])
        ((getCol dfLifespanPos "first_seen_utc").getD [])) :=
  C4_lifespan_days.1 dfLifespanPos (by decide) (by decide)

/-! ## Claim C5 — port names -/

/-- C5: `port_to_service_name` returns exactly `"uncommon"` whenever the
host registry has no entry, and `enrich_ports` gives a null (never
`"uncommon"`) `dst_port_name` for a null or non-numeric `dst_port`. -/
theorem C5_port_name_fallback :
    (∀ registry (p : Int), registry p "tcp" = none →
      port_to_service_name registry p = "uncommon") ∧
    (∀ registry (df : DataFrame), hasCol df "dst_port" = true →
      getCol (enrich_ports registry df) "dst_port_name" =
        some ((((getCol df "dst_port").getD []).map coerceNumeric).map
          (fun o => o.map (fun p => Value.vstr (port_to_service_name registry p))))) ∧
    (∀ registry (cell : Cell), coerceNumeric cell = none →
      (coerceNumeric cell).map (fun p => Value.vstr (port_to_service_name registry p)) =
        none) ∧
    (∀ registry (cell : Cell) (p : Int), coerceNumeric cell = some p →
      registry p "tcp" = none →
      (coerceNumeric cell).map (fun p2 => Value.vstr (port_to_service_name registry p2)) =
        some (.vstr "uncommon")) := by
  refine ⟨?_, ?_, ?_, ?_⟩
  · intro registry p h
    simp [port_to_service_name, h, PORT_NAME_FALLBACK]
  · intro registry df h
    simp only [enrich_ports, h, if_true, getCol_setCol]
  · intro registry cell h
    rw [h]; rfl
  · intro registry cell p h1 h2
    rw [h1]
    simp [port_to_service_name, h2, PORT_NAME_FALLBACK]

/-- Witness for C5 at a concrete empty registry and frame: the unknown port
9999 resolves to `"uncommon"`, and the null cell keeps a null name. -/
theorem C5_port_name_fallback_witness :
    port_to_service_name (fun _ _ => none) 9999 = "uncommon" ∧
    getCol (enrich_ports (fun _ _ => none)
        [("dst_port", [some (.vint 9999), none, some (.vstr "abc")])]) "dst_port_name" =
      some (((((getCol ([("dst_port", [some (.vint 9999), none, some (.vstr "abc")])] :
          DataFrame) "dst_port").getD []).map coerceNumeric)).map
        (fun o => o.map (fun p => Value.vstr (port_to_service_name (fun _ _ => none) p)))) :=
  ⟨C5_port_name_fallback.1 (fun _ _ => none) 9999 rfl,
   C5_port_name_fallback.2.1 (fun _ _ => none) _ (by decide)⟩

end Feodo

namespace Feodo

/-! ## Claim C8 — normalization idempotence -/

theorem toNat_ofNat_valid (n : Nat) (h : Nat.isValidChar n) :
    (Char.ofNat n).toNat = n := by
  simp [Char.ofNat, dif_pos h, Char.ofNatAux, Char.toNat, UInt32.toNat]

theorem lowerChar_toNat (c : Char) :
    (lowerChar c).toNat =
      if 65 ≤ c.toNat ∧ c.toNat ≤ 90 then c.toNat + 32 else c.toNat := by
  unfold lowerChar
  by_cases h : 65 ≤ c.toNat ∧ c.toNat ≤ 90
  · rw [if_pos h, if_pos h]
    exact toNat_ofNat_valid _ (Or.inl (by omega))
  · rw [if_neg h, if_neg h]

theorem lowerChar_idem (c : Char) : lowerChar (lowerChar c) = lowerChar c := by
  have hnot : ¬(65 ≤ (lowerChar c).toNat ∧ (lowerChar c).toNat ≤ 90) := by
    rw [lowerChar_toNat c]
    by_cases hc : 65 ≤ c.toNat ∧ c.toNat ≤ 90
    · rw [if_pos hc]; omega
    · rw [if_neg hc]; omega
  show (if 65 ≤ (lowerChar c).toNat ∧ (lowerChar c).toNat ≤ 90 then
      Char.ofNat ((lowerChar c).toNat + 32) else lowerChar c) = lowerChar c
  rw [if_neg hnot]

theorem isStripWs_iff (c : Char) : isStripWs c = true ↔
    (c.toNat = 32 ∨ c.toNat = 9 ∨ c.toNat = 10 ∨ c.toNat = 13 ∨
      c.toNat = 11 ∨ c.toNat = 12) := by
  simp [isStripWs, Bool.or_eq_true, beq_iff_eq, or_assoc]

theorem lowerChar_stripWs (c : Char) (h : isStripWs c = false) :
    isStripWs (lowerChar c) = false := by
  cases h2 : isStripWs (lowerChar c)
  · rfl
  · exfalso
    have h3 := (isStripWs_iff (lowerChar c)).mp h2
    rw [lowerChar_toNat c] at h3
    by_cases hc : 65 ≤ c.toNat ∧ c.toNat ≤ 90
    · rw [if_pos hc] at h3; omega
    · rw [if_neg hc] at h3
      have h4 : isStripWs c = true := (isStripWs_iff c).mpr h3
      rw [h4] at h
      exact absurd h (by decide)

/-- The normalization map applied to each character after stripping. -/
def normChar (c : Char) : Char :=
  replChar '-' '_' (replChar ' ' '_' (lowerChar c))

theorem replChar_stripWs (a c : Char) (h : isStripWs c = false) :
    isStripWs (replChar a '_' c) = false := by
  unfold replChar
  split
  · decide
  · exact h

theorem lowerChar_replChar_fixed (a c : Char) (h : lowerChar c = c) :
    lowerChar (replChar a '_' c) = replChar a '_' c := by
  unfold replChar
  split
  · decide
  · exact h

theorem normChar_lower_fixed (c : Char) : lowerChar (normChar c) = normChar c := by
  unfold normChar
  apply lowerChar_replChar_fixed
  apply lowerChar_replChar_fixed
  exact lowerChar_idem c

theorem replChar_out_ne (a c : Char) (h : ¬(('_' : Char) = a)) :
    ¬(replChar a '_' c = a) := by
  unfold replChar
  split
  · exact h
  · assumption

theorem normChar_ne_space (c : Char) : ¬(normChar c = ' ') := by
  unfold normChar replChar
  split
  · decide
  · split
    · decide
    · assumption

theorem normChar_ne_hyphen (c : Char) : ¬(normChar c = '-') := by
  unfold normChar
  exact replChar_out_ne '-' _ (by decide)

theorem normChar_stripWs (c : Char) (h : isStripWs c = false) :
    isStripWs (normChar c) = false := by
  unfold normChar
  exact replChar_stripWs _ _ (replChar_stripWs _ _ (lowerChar_stripWs c h))

theorem replChar_ne_self (a b c : Char) (h : ¬(c = a)) : replChar a b c = c := by
  simp [replChar, h]

theorem head?_dropWhile_not (p : Char → Bool) :
    ∀ (l : List Char) (c : Char), (l.dropWhile p).head? = some c → p c = false := by
  intro l
  induction l with
  | nil => intro c hc; simp [List.dropWhile] at hc
  | cons a t ih =>
      intro c hc
      by_cases h : p a
      · rw [List.dropWhile_cons_of_pos h] at hc
        exact ih c hc
      · rw [List.dropWhile_cons_of_neg h] at hc
        simp at hc
        rw [← hc]
        simpa using h
  
theorem dropWhile_eq_self_of_head (p : Char → Bool) (l : List Char)
    (h : ∀ c, l.head? = some c → p c = false) : l.dropWhile p = l := by
  cases l with
  | nil => rfl
  | cons a t =>
      have := h a rfl
      simp [List.dropWhile_cons, this]

theorem dropTrailing_eq_self_of_last (p : Char → Bool) (l : List Char)
    (h : ∀ c, l.getLast? = some c → p c = false) : dropTrailing p l = l := by
  unfold dropTrailing
  rw [dropWhile_eq_self_of_head p l.reverse (by
    intro c hc
    rw [List.head?_reverse] at hc
    exact h c hc)]
  exact List.reverse_reverse l

theorem stripChars_head (cs : List Char) (c : Char)
    (h : (stripChars cs).head? = some c) : isStripWs c = false := by
  unfold stripChars dropTrailing at h
  have hpre : ((cs.dropWhile isStripWs).reverse.dropWhile isStripWs).reverse <+:
      cs.dropWhile isStripWs := by
    have h0 : ((cs.dropWhile isStripWs).reverse.dropWhile isStripWs).reverse <+:
        (cs.dropWhile isStripWs).reverse.reverse :=
      List.reverse_prefix.mpr (List.dropWhile_suffix isStripWs)
    rw [List.reverse_reverse] at h0
    exact h0
  obtain ⟨t, ht⟩ := hpre
  have h2 : (cs.dropWhile isStripWs).head? = some c := by
    rw [← ht]
    cases h3 : ((cs.dropWhile isStripWs).reverse.dropWhile isStripWs).reverse with
    | nil => rw [h3] at h; simp at h
    | cons a r =>
        rw [h3] at h
        simp at h
        simpa using h
  exact head?_dropWhile_not isStripWs cs c h2

theorem stripChars_last (cs : List Char) (c : Char)
    (h : (stripChars cs).getLast? = some c) : isStripWs c = false := by
  unfold stripChars dropTrailing at h
  rw [List.getLast?_reverse] at h
  exact head?_dropWhile_not isStripWs _ c h

theorem stripChars_eq_self (l : List Char)
    (hh : ∀ c, l.head? = some c → isStripWs c = false)
    (hl : ∀ c, l.getLast? = some c → isStripWs c = false) :
    stripChars l = l := by
  unfold stripChars
  rw [dropWhile_eq_self_of_head _ _ hh]
  exact dropTrailing_eq_self_of_last _ _ hl

theorem normChar_idem (c : Char) : normChar (normChar c) = normChar c := by
  have h1 : lowerChar (normChar c) = normChar c := normChar_lower_fixed c
  show replChar '-' '_' (replChar ' ' '_' (lowerChar (normChar c))) = normChar c
  rw [h1, replChar_ne_self _ _ _ (normChar_ne_space c),
    replChar_ne_self _ _ _ (normChar_ne_hyphen c)]

theorem map_normChar_idem (l : List Char) :
    (l.map normChar).map normChar = l.map normChar := by
  induction l with
  | nil => rfl
  | cons a t ih => simp [normChar_idem, ih]

theorem normName_eq_map (s : String) :
    normName s = ⟨(stripChars s.data).map normChar⟩ := by
  simp only [normName, List.map_map]
  rfl

theorem normName_idem (s : String) : normName (normName s) = normName s := by
  rw [normName_eq_map s]
  rw [normName_eq_map ⟨(stripChars s.data).map normChar⟩]
  have hdata : (String.mk ((stripChars s.data).map normChar)).data =
      (stripChars s.data).map normChar := rfl
  rw [hdata]
  have hstrip : stripChars ((stripChars s.data).map normChar) =
      (stripChars s.data).map normChar := by
    apply stripChars_eq_self
    · intro c hc
      rw [List.head?_map] at hc
      cases h2 : (stripChars s.data).head? with
      | none => rw [h2] at hc; simp at hc
      | some c0 =>
          rw [h2] at hc
          simp at hc
          rw [← hc]
          exact normChar_stripWs c0 (stripChars_head _ _ h2)
    · intro c hc
      rw [List.getLast?_map] at hc
      cases h2 : (stripChars s.data).getLast? with
      | none => rw [h2] at hc; simp at hc
      | some c0 =>
          rw [h2] at hc
          simp at hc
          rw [← hc]
          exact normChar_stripWs c0 (stripChars_last _ _ h2)
  rw [hstrip]
  exact congrArg String.mk (map_normChar_idem (stripChars s.data))

end Feodo

namespace Feodo

/-- C8: column normalization is idempotent — normalizing twice is the same
as normalizing once, so a dataset whose column names are already normalized
(each name a fixed point of the normalization) keeps every column name
unchanged. -/
theorem C8_normalize_cols_idempotent :
    (∀ df : DataFrame, normalize_cols (normalize_cols df) = normalize_cols df) ∧
    (∀ df : DataFrame, (∀ col ∈ df, normName col.1 = col.1) →
      normalize_cols df = df) := by
  constructor
  · intro df
    induction df with
    | nil => rfl
    | cons col cols ih =>
        simp only [normalize_cols, List.map_cons] at ih ⊢
        rw [normName_idem]
        simpa using ih
  · intro df h
    induction df with
    | nil => rfl
    | cons col cols ih =>
        have h1 := h col (List.mem_cons_self col cols)
        have h2 : ∀ c ∈ cols, normName c.1 = c.1 :=
          fun c hc => h c (List.mem_cons_of_mem col hc)
        simp only [normalize_cols, List.map_cons] at ih ⊢
        rw [h1]
        exact congrArg (List.cons col) (ih h2)

/-- Witness for C8: the already-normalized names of this pipeline are left
unchanged by a second normalization. -/
theorem C8_normalize_cols_idempotent_witness :
    normalize_cols [("dst_ip", ([] : List Cell)), ("first_seen_utc", [])] =
      [("dst_ip", []), ("first_seen_utc", [])] :=
  C8_normalize_cols_idempotent.2 _ (by decide)

end Feodo

namespace Feodo

/-! ## Claim C2 — batch failure isolation -/

theorem jGet_failRecord_query (ip e : String) :
    jGet (failRecord ip e) "query" = some (.str ip) := by
  simp [failRecord, jGet, jGet.go]

theorem insertResults_fail_lookup :
    ∀ (chunk : List String) (cache : Dict) (ip e : String), ip ≠ "" →
      (ip ∈ chunk ∨ dictLookup cache ip = some (failRecord ip e)) →
      dictLookup (insertResults cache (chunk.map (fun ip2 => failRecord ip2 e))) ip =
        some (failRecord ip e) := by
  intro chunk
  induction chunk with
  | nil =>
      intro cache ip e hne hmem
      rcases hmem with hmem | hmem
      · simp at hmem
      · simpa [insertResults] using hmem
  | cons x xs ih =>
      intro cache ip e hne hmem
      have hstep : insertResults cache (((x :: xs).map (fun ip2 => failRecord ip2 e))) =
          insertResults (if x == "" then cache else dictInsert cache x (failRecord x e))
            (xs.map (fun ip2 => failRecord ip2 e)) := by
        simp only [List.map_cons, insertResults, List.foldl_cons, jGet_failRecord_query]
      rw [hstep]
      by_cases hx : x = ip
      · subst hx
        rw [show (x == "") = false by simpa using hne]
        exact ih _ x e hne (Or.inr (dictLookup_insert_self cache x _))
      · rcases hmem with hmem | hmem
        · rcases List.mem_cons.mp hmem with h1 | h1
          · exact absurd h1.symm hx
          · by_cases hxe : x == ""
            · rw [if_pos hxe]
              exact ih _ ip e hne (Or.inl h1)
            · rw [if_neg hxe]
              exact ih _ ip e hne (Or.inl h1)
        · by_cases hxe : x == ""
          · rw [if_pos hxe]
            exact ih _ ip e hne (Or.inr hmem)
          · rw [if_neg hxe]
            refine ih _ ip e hne (Or.inr ?_)
            rw [dictLookup_insert_ne cache x ip _ hx]
            exact hmem

theorem processChunks_trace (api : List String → Except String (List Json))
    (cache_path : Option String) :
    ∀ (chunks : List (List String)) (cache : Dict) (fs : FS),
      (processChunks api cache_path cache fs chunks).2.2 = chunks := by
  intro chunks
  induction chunks with
  | nil => intro cache fs; rfl
  | cons chunk rest ih =>
      intro cache fs
      simp only [processChunks]
      rw [ih]

/-- C2: when the network call for a chunk raises (any exception: timeout,
transport error, non-success status), a failure record
`{query: ip, status: "fail", message: str(e)}` is synthesized and cached for
every (non-empty) IP of that chunk, and the loop still processes every
remaining chunk — the trace of chunks sent to the network is always the
whole chunk list, never truncated by a failure. -/
theorem C2_batch_failure_isolated
    (api : List String → Except String (List Json)) (cache_path : Option String)
    (cache : Dict) (fs : FS) (chunk : List String) (rest : List (List String))
    (e : String) (herr : api chunk = .error e) :
    (∀ ip ∈ chunk, ip ≠ "" →
      dictLookup (insertResults cache (chunk.map (fun ip2 => failRecord ip2 e))) ip =
        some (failRecord ip e)) ∧
    (processChunks api cache_path cache fs (chunk :: rest) =
      (let cache2 := insertResults cache (chunk.map (fun ip2 => failRecord ip2 e))
       let fs2 := save_cache fs cache_path cache2
       let out := processChunks api cache_path cache2 fs2 rest
       (out.1, out.2.1, chunk :: out.2.2))) ∧
    (∀ (chunks : List (List String)) (cache0 : Dict) (fs0 : FS),
      (processChunks api cache_path cache0 fs0 chunks).2.2 = chunks) := by
  refine ⟨?_, ?_, processChunks_trace api cache_path⟩
  · intro ip hip hne
    exact insertResults_fail_lookup chunk cache ip e hne (Or.inl hip)
  · simp only [processChunks, herr]

/-- Witness for C2: a concrete two-chunk run whose first chunk fails with
`"timeout"`; the failure record is cached under `"9.9.9.9"` and both chunks
are still queried. -/
theorem C2_batch_failure_isolated_witness :
    (dictLookup (insertResults [] ([["9.9.9.9"]].head!.map
        (fun ip2 => failRecord ip2 "timeout"))) "9.9.9.9" =
      some (failRecord "9.9.9.9" "timeout")) ∧
    (processChunks (fun chunk => if chunk = [["9.9.9.9"]].head! then .error "timeout"
        else .ok []) none [] [] [["9.9.9.9"], ["8.8.8.8"]]).2.2 =
      [["9.9.9.9"], ["8.8.8.8"]] := by
  have h := C2_batch_failure_isolated
    (fun chunk => if chunk = [["9.9.9.9"]].head! then .error "timeout" else .ok [])
    none [] [] ["9.9.9.9"] [["8.8.8.8"]] "timeout" (by rfl)
  exact ⟨h.1 "9.9.9.9" (by decide) (by decide), h.2.2 [["9.9.9.9"], ["8.8.8.8"]] [] []⟩

end Feodo

namespace Feodo

/-! ## Claim C3 — rate-limited batching -/

theorem chunkCount_pos_eq (bs n : Nat) (hbs : 1 ≤ bs) (hn : 1 ≤ n) :
    (n + bs - 1) / bs = (n - 1) / bs + 1 := by
  have h1 : n + bs - 1 = (n - 1) + bs := by omega
  rw [h1, Nat.add_div_right _ (by omega)]

theorem chunks_join (bs : Nat) (hbs : 1 ≤ bs) :
    ∀ (items : List String),
      ((List.range ((items.length + bs - 1) / bs)).map
        (fun j => (items.drop (j * bs)).take bs)).flatten = items := by
  have main : ∀ (N : Nat) (items : List String), items.length ≤ N →
      ((List.range ((items.length + bs - 1) / bs)).map
        (fun j => (items.drop (j * bs)).take bs)).flatten = items := by
    intro N
    induction N with
    | zero =>
        intro items hlen
        have : items = [] := List.eq_nil_of_length_eq_zero (by omega)
        subst this
        have hk : (([] : List String).length + bs - 1) / bs = 0 :=
          Nat.div_eq_of_lt (by simp; omega)
        rw [hk]
        rfl
    | succ N ih =>
        intro items hlen
        cases items with
        | nil =>
            have hk : (([] : List String).length + bs - 1) / bs = 0 :=
              Nat.div_eq_of_lt (by simp; omega)
            rw [hk]
            rfl
        | cons a t =>
            have hn : 1 ≤ (a :: t).length := by simp
            rw [chunkCount_pos_eq bs _ hbs hn, List.range_succ_eq_map]
            simp only [List.map_cons, List.map_map, List.flatten]
            have hzero : ((a :: t).drop (0 * bs)).take bs = (a :: t).take bs := by simp
            have hrest : ∀ j : Nat,
                ((a :: t).drop (Nat.succ j * bs)).take bs =
                  (((a :: t).drop bs).drop (j * bs)).take bs := by
              intro j
              rw [List.drop_drop, Nat.succ_mul, Nat.add_comm (j * bs) bs]
            have hcnt : ((a :: t).length - 1) / bs =
                (((a :: t).drop bs).length + bs - 1) / bs := by
              simp only [List.length_drop, List.length_cons]
              by_cases hcase : bs ≤ t.length + 1
              · congr 1
                omega
              · rw [Nat.div_eq_of_lt (by omega), Nat.div_eq_of_lt (by omega)]
            have hmapeq : (List.range (((a :: t).length - 1) / bs)).map
                ((fun j => ((a :: t).drop (j * bs)).take bs) ∘ Nat.succ) =
                (List.range ((((a :: t).drop bs).length + bs - 1) / bs)).map
                  (fun j => (((a :: t).drop bs).drop (j * bs)).take bs) := by
              rw [hcnt]
              apply List.map_congr_left
              intro j hj
              simp only [Function.comp]
              exact hrest j
            rw [hzero, hmapeq]
            have hdroplen : ((a :: t).drop bs).length ≤ N := by
              simp only [List.length_drop, List.length_cons] at hlen ⊢
              omega
            rw [ih ((a :: t).drop bs) hdroplen]
            exact List.take_append_drop bs (a :: t)
  intro items
  exact main items.length items le_rfl

theorem rate_limited_batches_pos (items : List String) (batch_size rpm : Int)
    (hbs : 1 ≤ batch_size) :
    rate_limited_batches items batch_size rpm =
      some ((List.range ((items.length + batch_size.toNat - 1) / batch_size.toNat)).map
        (fun j => ((items.drop (j * batch_size.toNat)).take batch_size.toNat,
          if j * batch_size.toNat + batch_size.toNat < items.length then
            some ((60 : ℚ) / ((max 1 rpm : Int) : ℚ)) else none))) := by
  unfold rate_limited_batches
  rw [if_neg (by omega), if_neg (by omega)]

end Feodo

namespace Feodo

theorem sleep_index_iff (bs n j : Nat) (hbs : 1 ≤ bs) (hj : j < (n + bs - 1) / bs) :
    (j * bs + bs < n) ↔ (j + 1 < (n + bs - 1) / bs) := by
  have hmul : (j + 1) * bs = j * bs + bs := by ring
  constructor
  · intro h
    have h1 : 1 ≤ n := by omega
    rw [chunkCount_pos_eq bs n hbs h1]
    have h2 : j + 1 ≤ (n - 1) / bs := by
      rw [Nat.le_div_iff_mul_le (by omega)]
      omega
    omega
  · intro h
    have h1 : 1 ≤ n := by
      by_contra hn
      have hz : n = 0 := by omega
      subst hz
      rw [Nat.div_eq_of_lt (by omega)] at hj
      omega
    rw [chunkCount_pos_eq bs n hbs h1] at h
    have h2 : j + 1 ≤ (n - 1) / bs := by omega
    rw [Nat.le_div_iff_mul_le (by omega)] at h2
    omega

/-- C3 (amended): for a batch size of at least 1, `rate_limited_batches`
partitions the IPs into contiguous chunks of at most `batchSize` elements,
in order and covering the whole sequence, and after every chunk except the
last it sleeps for `60 / max(1, ratePerMinute)` seconds (not
`60 / ratePerMinute`: the code clamps the divisor at 1).  A zero batch size
raises instead of partitioning. -/
theorem C3_rate_limited_batches_amended (items : List String)
    (batch_size rpm : Int) (hbs : 1 ≤ batch_size) :
    ∃ out, rate_limited_batches items batch_size rpm = some out ∧
      (out.map Prod.fst).flatten = items ∧
      (∀ chunk ∈ out.map Prod.fst, chunk.length ≤ batch_size.toNat) ∧
      ∀ (j : Nat) (hj : j < out.length),
        (out.get ⟨j, hj⟩).2 =
          if j + 1 < out.length then some ((60 : ℚ) / ((max 1 rpm : Int) : ℚ))
          else none := by
  have hbsn : 1 ≤ batch_size.toNat := by omega
  refine ⟨_, rate_limited_batches_pos items batch_size rpm hbs, ?_, ?_, ?_⟩
  · simp only [List.map_map]
    have hcomp : (Prod.fst ∘ fun j =>
        ((items.drop (j * batch_size.toNat)).take batch_size.toNat,
          if j * batch_size.toNat + batch_size.toNat < items.length then
            some ((60 : ℚ) / ((max 1 rpm : Int) : ℚ)) else none)) =
        fun j => (items.drop (j * batch_size.toNat)).take batch_size.toNat := rfl
    rw [hcomp]
    exact chunks_join batch_size.toNat hbsn items
  · intro chunk hmem
    simp only [List.map_map, List.mem_map, List.mem_range] at hmem
    obtain ⟨j, hj, hchunk⟩ := hmem
    rw [← hchunk]
    simp [List.length_take]
  · intro j hj
    have hlen : (((List.range ((items.length + batch_size.toNat - 1) /
        batch_size.toNat)).map (fun j =>
          ((items.drop (j * batch_size.toNat)).take batch_size.toNat,
            if j * batch_size.toNat + batch_size.toNat < items.length then
              some ((60 : ℚ) / ((max 1 rpm : Int) : ℚ)) else none)))).length =
        (items.length + batch_size.toNat - 1) / batch_size.toNat := by
      simp
    have hj2 : j < (items.length + batch_size.toNat - 1) / batch_size.toNat := by
      rw [hlen] at hj
      exact hj
    rw [List.get_eq_getElem]
    simp only [List.getElem_map, List.getElem_range, hlen]
    have hiff := sleep_index_iff batch_size.toNat items.length j hbsn hj2
    by_cases hcond : j * batch_size.toNat + batch_size.toNat < items.length
    · rw [if_pos hcond, if_pos (hiff.mp hcond)]
    · rw [if_neg hcond, if_neg (fun hc => hcond (hiff.mpr hc))]

/-- C3 counterexample: the claim as stated fails at `ratePerMinute = -3`
(and a zero `batchSize` yields no partition at all).  With items
`["a","b"]`, batch size 1, rate −3, the generator sleeps 60 seconds after
the first chunk, but `60 / ratePerMinute = −20 ≠ 60`. -/
theorem C3_rate_limited_batches_counterexample :
    (rate_limited_batches ["a", "b"] 1 (-3)).map (fun out => out.map Prod.snd) =
      some [some 60, none] ∧
    ¬((60 : ℚ) = 60 / ((-3 : Int) : ℚ)) ∧
    rate_limited_batches ["a"] 0 40 = none := by
  refine ⟨?_, by norm_num, by rfl⟩
  rw [rate_limited_batches_pos _ _ _ (by omega)]
  norm_num [List.range_succ]

end Feodo

namespace Feodo

/-! ## Claims C9 / C1 — batch sizes and query selection -/

theorem enrich_geolocation_calls (api : List String → Except String (List Json))
    (fs : FS) (cache_path : Option String) (df : DataFrame) (rpm batch_size : Int)
    (hbs : 1 ≤ batch_size) :
    ∃ eff, enrich_geolocation api fs cache_path df rpm batch_size = some eff ∧
      ((hasCol df "dst_ip" = false ∧ eff.calls = []) ∨
       (hasCol df "dst_ip" = true ∧ eff.calls =
         (List.range (((to_query fs cache_path df).length + batch_size.toNat - 1) /
            batch_size.toNat)).map
           (fun j => ((to_query fs cache_path df).drop (j * batch_size.toNat)).take
              batch_size.toNat))) := by
  by_cases hcol : hasCol df "dst_ip"
  · simp only [enrich_geolocation]
    rw [if_neg (by simp [hcol])]
    rw [rate_limited_batches_pos _ _ _ hbs]
    refine ⟨_, rfl, Or.inr ⟨hcol, ?_⟩⟩
    simp only [List.map_map]
    rw [processChunks_trace]
    rfl
  · have hcol2 : hasCol df "dst_ip" = false := by simpa using hcol
    rw [show enrich_geolocation api fs cache_path df rpm batch_size =
      some ⟨df, fs, []⟩ from by simp [enrich_geolocation, hcol2]]
    exact ⟨_, rfl, Or.inl ⟨hcol2, rfl⟩⟩

end Feodo

namespace Feodo

/-- C9 (amended): the CLI default batch size is 100, and whenever the
configured batch size is between 1 and 100 no network request carries more
than 100 query objects; the tool itself never validates or clamps the
`--batch` value. -/
theorem C9_batch_limit_amended :
    main_default_batch = 100 ∧
    ∀ api fs cache_path df rpm batch_size, 1 ≤ batch_size → batch_size ≤ 100 →
      ∃ eff, enrich_geolocation api fs cache_path df rpm batch_size = some eff ∧
        ∀ chunk ∈ eff.calls, (ip_api_batch_query_payload chunk).length ≤ 100 := by
  refine ⟨rfl, ?_⟩
  intro api fs cache_path df rpm batch_size h1 h100
  obtain ⟨eff, heq, hcase⟩ := enrich_geolocation_calls api fs cache_path df rpm batch_size h1
  refine ⟨eff, heq, ?_⟩
  intro chunk hchunk
  have hpay : (ip_api_batch_query_payload chunk).length = chunk.length := by
    simp [ip_api_batch_query_payload]
  have hlen : chunk.length ≤ batch_size.toNat := by
    rcases hcase with ⟨_, hc⟩ | ⟨_, hc⟩
    · rw [hc] at hchunk; simp at hchunk
    · rw [hc] at hchunk
      simp only [List.mem_map, List.mem_range] at hchunk
      obtain ⟨j, _, hj⟩ := hchunk
      rw [← hj]
      simp [List.length_take]
  omega

/-- Witness for C9 (amended) at the CLI defaults. -/
theorem C9_batch_limit_amended_witness :
    ∃ eff, enrich_geolocation (fun _ => .ok []) [] none
        [("dst_ip", [some (.vstr "8.8.8.8")])] 40 100 = some eff ∧
      ∀ chunk ∈ eff.calls, (ip_api_batch_query_payload chunk).length ≤ 100 :=
  C9_batch_limit_amended.2 (fun _ => .ok []) [] none
    [("dst_ip", [some (.vstr "8.8.8.8")])] 40 100 (by omega) (by omega)

/-- 101 distinct destination IPs. -/
def df101 : DataFrame :=
  [("dst_ip", (List.range 101).map (fun i => some (.vstr ("ip" ++ toString i))))]

/-- C9 counterexample: nothing stops a run from using a batch size above
100 — with `--batch 200` and 101 distinct IPs, a single network request
carries 101 query objects. -/
theorem C9_batch_limit_counterexample :
    (enrich_geolocation (fun _ => .error "down") [] none df101 40 200).map
        (fun eff => eff.calls.map (fun c => (ip_api_batch_query_payload c).length)) =
      some [101] ∧ 100 < 101 := by
  constructor
  · set_option maxRecDepth 100000 in decide
  · omega

end Feodo

namespace Feodo

theorem charsLe_total : ∀ as bs : List Char, charsLe as bs = true ∨ charsLe bs as = true := by
  intro as
  induction as with
  | nil => intro bs; left; rfl
  | cons a as ih =>
      intro bs
      cases bs with
      | nil => right; rfl
      | cons b bs =>
          by_cases h1 : a.toNat < b.toNat
          · left; simp [charsLe, h1]
          · by_cases h2 : b.toNat < a.toNat
            · right; simp [charsLe, h2]
            · rcases ih bs with h | h
              · left; simp [charsLe, h1, h2, h]
              · right; simp [charsLe, h1, h2, h]

theorem charsLe_trans : ∀ as bs cs : List Char,
    charsLe as bs = true → charsLe bs cs = true → charsLe as cs = true := by
  intro as
  induction as with
  | nil => intro bs cs _ _; rfl
  | cons a as ih =>
      intro bs cs h1 h2
      cases bs with
      | nil => simp [charsLe] at h1
      | cons b bs =>
          cases cs with
          | nil => simp [charsLe] at h2
          | cons c cs =>
              simp only [charsLe] at h1 h2 ⊢
              by_cases hab : a.toNat < b.toNat
              · by_cases hbc : b.toNat < c.toNat
                · rw [if_pos (by omega)]
                · rw [if_neg hbc] at h2
                  by_cases hcb : c.toNat < b.toNat
                  · rw [if_pos hcb] at h2; exact absurd h2 (by simp)
                  · rw [if_pos (by omega)]
              · rw [if_neg hab] at h1
                by_cases hba : b.toNat < a.toNat
                · rw [if_pos hba] at h1; exact absurd h1 (by simp)
                · rw [if_neg hba] at h1
                  by_cases hbc : b.toNat < c.toNat
                  · rw [if_pos (by omega)]
                  · rw [if_neg hbc] at h2
                    by_cases hcb : c.toNat < b.toNat
                    · rw [if_pos hcb] at h2; exact absurd h2 (by simp)
                    · rw [if_neg hcb] at h2
                      rw [if_neg (by omega), if_neg (by omega)]
                      exact ih bs cs h1 h2

instance : IsTotal String (fun a b => strLe a b = true) :=
  ⟨fun a b => charsLe_total a.data b.data⟩

instance : IsTrans String (fun a b => strLe a b = true) :=
  ⟨fun a b c => charsLe_trans a.data b.data c.data⟩

end Feodo

namespace Feodo

theorem to_query_nodup (fs : FS) (cache_path : Option String) (df : DataFrame) :
    (to_query fs cache_path df).Nodup := by
  apply List.Nodup.filter
  unfold unique_ips
  exact (List.perm_insertionSort _ _).nodup_iff.mpr (List.nodup_dedup _)

theorem to_query_sorted (fs : FS) (cache_path : Option String) (df : DataFrame) :
    List.Sorted (fun a b => strLe a b = true) (to_query fs cache_path df) := by
  apply List.Pairwise.sublist (List.filter_sublist _)
  exact List.sorted_insertionSort _ _

theorem to_query_mem (fs : FS) (cache_path : Option String) (df : DataFrame)
    (ip : String) (h : ip ∈ to_query fs cache_path df) :
    ip ≠ "" ∧ dictContains (loadedCache fs cache_path) ip = false ∧
      ip ∈ ((getCol df "dst_ip").getD []).filterMap (fun cell => cell.map pyStrVal) := by
  unfold to_query at h
  rw [List.mem_filter] at h
  obtain ⟨hu, hc⟩ := h
  unfold unique_ips at hu
  have hu2 := (List.perm_insertionSort _ _).mem_iff.mp hu
  rw [List.mem_dedup, List.mem_filter] at hu2
  refine ⟨by simpa using hu2.2, by simpa using hc, hu2.1⟩

/-- C1: for every dataset with a `dst_ip` column, the geolocation
enrichment sends to the remote service exactly the `to_query` list —
unique, non-empty, absent from the loaded cache, drawn from the column, and
sorted — and each IP at most once; on
`["1.1.1.1", "2.2.2.2", "1.1.1.1"]` with an empty cache it queries exactly
the two distinct IPs, sorted, once each, in one batch. -/
theorem C1_queries_unique_sorted_uncached :
    (∀ api fs cache_path (df : DataFrame) rpm batch_size, 1 ≤ batch_size →
      hasCol df "dst_ip" = true →
      ∃ eff, enrich_geolocation api fs cache_path df rpm batch_size = some eff ∧
        eff.calls.flatten = to_query fs cache_path df ∧
        eff.calls.flatten.Nodup ∧
        List.Sorted (fun a b => strLe a b = true) eff.calls.flatten ∧
        ∀ ip ∈ eff.calls.flatten, ip ≠ "" ∧
          dictContains (loadedCache fs cache_path) ip = false ∧
          ip ∈ ((getCol df "dst_ip").getD []).filterMap
            (fun cell => cell.map pyStrVal)) ∧
    (enrich_geolocation (fun _ => .error "down") [] (some "data/ip_geo_cache.json")
        [("dst_ip", [some (.vstr "1.1.1.1"), some (.vstr "2.2.2.2"),
          some (.vstr "1.1.1.1")])] 40 100).map GeoEffect.calls =
      some [["1.1.1.1", "2.2.2.2"]] := by
  constructor
  · intro api fs cache_path df rpm batch_size hbs hcol
    obtain ⟨eff, heq, hcase⟩ :=
      enrich_geolocation_calls api fs cache_path df rpm batch_size hbs
    rcases hcase with ⟨hfalse, _⟩ | ⟨_, hcalls⟩
    · rw [hcol] at hfalse
      exact absurd hfalse (by simp)
    · have hbsn : 1 ≤ batch_size.toNat := by omega
      have hflat : eff.calls.flatten = to_query fs cache_path df := by
        rw [hcalls]
        exact chunks_join batch_size.toNat hbsn (to_query fs cache_path df)
      refine ⟨eff, heq, hflat, ?_, ?_, ?_⟩
      · rw [hflat]; exact to_query_nodup fs cache_path df
      · rw [hflat]; exact to_query_sorted fs cache_path df
      · rw [hflat]; exact fun ip hip => to_query_mem fs cache_path df ip hip
  · decide

/-- Witness for C1's universally quantified part at a concrete dataset. -/
theorem C1_queries_unique_sorted_uncached_witness :
    ∃ eff, enrich_geolocation (fun _ => .ok []) [] none
        [("dst_ip", [some (.vstr "8.8.8.8"), some (.vstr "1.1.1.1")])] 40 100 =
        some eff ∧
      eff.calls.flatten = to_query [] none
        [("dst_ip", [some (.vstr "8.8.8.8"), some (.vstr "1.1.1.1")])] ∧
      eff.calls.flatten.Nodup ∧
      List.Sorted (fun a b => strLe a b = true) eff.calls.flatten ∧
      ∀ ip ∈ eff.calls.flatten, ip ≠ "" ∧
        dictContains (loadedCache [] none) ip = false ∧
        ip ∈ ((getCol ([("dst_ip", [some (.vstr "8.8.8.8"),
          some (.vstr "1.1.1.1")])] : DataFrame) "dst_ip").getD []).filterMap
          (fun cell => cell.map pyStrVal) :=
  C1_queries_unique_sorted_uncached.1 (fun _ => .ok []) [] none
    [("dst_ip", [some (.vstr "8.8.8.8"), some (.vstr "1.1.1.1")])] 40 100
    (by omega) (by decide)

end Feodo

namespace Feodo

/-! ## Claim C10 — stages do not mutate their argument -/

theorem heapGet_after_copy_set (h : PyHeap) (r : Nat) (hr : r < h.length)
    (df2 : DataFrame) :
    heapGet (heapSet (h ++ [heapGet h r]) h.length df2) r = heapGet h r := by
  unfold heapGet heapSet
  rw [List.get?_set_ne _ _ (by omega)]
  rw [List.get?_append hr]

/-- C10: every pipeline stage copies its argument before any column
assignment, so the caller's frame object is unchanged by the call and the
returned reference is a fresh object, for all five stages. -/
theorem C10_stages_leave_argument_unchanged (h : PyHeap) (r : Nat)
    (hr : r < h.length) (parseDT : Value → Option Int)
    (registry : Int → String → Option String)
    (api : List String → Except String (List Json)) (fs : FS)
    (cache_path : Option String) (rpm batch_size : Int) :
    (heapGet (normalize_cols_py h r).1 r = heapGet h r ∧
      (normalize_cols_py h r).2 ≠ r) ∧
    (heapGet (to_datetime_py parseDT h r).1 r = heapGet h r ∧
      (to_datetime_py parseDT h r).2 ≠ r) ∧
    (heapGet (enrich_ports_py registry h r).1 r = heapGet h r ∧
      (enrich_ports_py registry h r).2 ≠ r) ∧
    (heapGet (compute_lifespan_py h r).1 r = heapGet h r ∧
      (compute_lifespan_py h r).2 ≠ r) ∧
    (1 ≤ batch_size →
      ∃ h2 r2 fs2, enrich_geolocation_py api fs cache_path h r rpm batch_size =
          some (h2, r2, fs2) ∧
        heapGet h2 r = heapGet h r ∧ r2 ≠ r) := by
  refine ⟨⟨heapGet_after_copy_set h r hr _, by simp only [normalize_cols_py, heapAlloc]; omega⟩,
    ⟨heapGet_after_copy_set h r hr _, by simp only [to_datetime_py, heapAlloc]; omega⟩,
    ⟨heapGet_after_copy_set h r hr _, by simp only [enrich_ports_py, heapAlloc]; omega⟩,
    ⟨heapGet_after_copy_set h r hr _, by simp only [compute_lifespan_py, heapAlloc]; omega⟩,
    ?_⟩
  intro hbs
  obtain ⟨eff, heq, -⟩ := enrich_geolocation_calls api fs cache_path
    (heapGet (h ++ [heapGet h r]) h.length) rpm batch_size hbs
  have hpy : enrich_geolocation_py api fs cache_path h r rpm batch_size =
      some (heapSet (h ++ [heapGet h r]) h.length eff.frame, h.length, eff.fs) := by
    unfold enrich_geolocation_py heapAlloc
    simp only [heq]
  exact ⟨_, _, _, hpy, heapGet_after_copy_set h r hr _, by omega⟩

/-- Witness for C10 on a concrete one-frame heap. -/
theorem C10_stages_leave_argument_unchanged_witness :
    (heapGet (normalize_cols_py [[("A B", [])]] 0).1 0 = heapGet [[("A B", [])]] 0 ∧
      (normalize_cols_py [[("A B", [])]] 0).2 ≠ 0) ∧
    (∃ h2 r2 fs2, enrich_geolocation_py (fun _ => .ok []) [] none
        [[("A B", [])]] 0 40 100 = some (h2, r2, fs2) ∧
      heapGet h2 0 = heapGet [[("A B", [])]] 0 ∧ r2 ≠ 0) := by
  have h := C10_stages_leave_argument_unchanged [[("A B", [])]] 0 (by decide)
    (fun _ => none) (fun _ _ => none) (fun _ => .ok []) [] none 40 100
  exact ⟨h.1, h.2.2.2.2 (by omega)⟩

end Feodo

namespace Feodo

/-- Witness for C3 (amended) at a concrete three-item, batch-size-2 run. -/
theorem C3_rate_limited_batches_amended_witness :
    ∃ out, rate_limited_batches ["a", "b", "c"] 2 40 = some out ∧
      (out.map Prod.fst).flatten = ["a", "b", "c"] ∧
      (∀ chunk ∈ out.map Prod.fst, chunk.length ≤ (2 : Int).toNat) ∧
      ∀ (j : Nat) (hj : j < out.length),
        (out.get ⟨j, hj⟩).2 =
          if j + 1 < out.length then some ((60 : ℚ) / ((max 1 40 : Int) : ℚ))
          else none :=
  C3_rate_limited_batches_amended ["a", "b", "c"] 2 40 (by omega)

end Feodo
